import Mathlib

/-!
Shallow embedding of the docusaurus-plugin-llms pipeline
(src/src/utils.ts, src/src/processor.ts, src/src/generator.ts,
src/src/index.ts) together with proofs about the claims of its
specification.

Conventions used throughout:
* TypeScript strings are Lean `String`s; character-level scanning mirrors
  the JavaScript regular expressions used by the source, implemented as
  recursive functions over `List Char`.
* Asynchronous file-system reads are factored out: a function that reads
  files takes the already-read payload (or a resolver function) as an
  argument, and functions that only write are embedded as pure "plans"
  describing which artifacts would be written.
* The external glob library `minimatch` is modelled from its documented
  semantics for the pattern features exercised by this plugin
  (literal characters, `*`, `?`, `**`, and the `matchBase` option).
-/

namespace LLMsPlugin

/-- Characters matched by the JavaScript regex class `\s` (ASCII part):
space, tab, newline, carriage return, form feed, vertical tab. -/
def isSpaceChar (c : Char) : Bool :=
  c = ' ' || c = '\t' || c = '\n' || c = '\r' || c = '\x0c' || c = '\x0b'

/-- Characters matched by the JavaScript regex class `\w`. -/
def isWordChar (c : Char) : Bool :=
  ('a' ≤ c && c ≤ 'z') || ('A' ≤ c && c ≤ 'Z') || ('0' ≤ c && c ≤ '9') || c = '_'

/-- `s.endsWith t`, computed on the character lists (JavaScript
`String.prototype.endsWith`). -/
def strEndsWith (s t : String) : Bool := t.data.isSuffixOf s.data

/-- `s.startsWith t`, computed on the character lists (JavaScript
`String.prototype.startsWith`). -/
def strStartsWith (s t : String) : Bool := t.data.isPrefixOf s.data

/-- Split a character list at every `/`, keeping empty segments: the
segment decomposition of a URL or file path (`"a/b".split('/')`). -/
def segs : List Char → List (List Char)
  | [] => [[]]
  | c :: cs =>
    if c = '/' then [] :: segs cs
    else
      match segs cs with
      | [] => [[c]]
      | w :: ws => (c :: w) :: ws

/-- The segment list of a path, as strings. -/
def pathSegments (s : String) : List String :=
  (segs s.data).map (fun l => ⟨l⟩)

/-- The basename (final path segment) of a path, as characters. -/
def basenameChars (s : String) : List Char :=
  (segs s.data).getLastD []

/-- `true` when the string `x` occurs as a complete `/`-delimited segment
of the path `p`. -/
def hasSegment (x p : String) : Bool :=
  (segs p.data).contains x.data

/-- Glob match of one pattern segment against one path segment:
`*` matches any (possibly empty) run of characters, `?` exactly one
character, every other character itself.  Modelled from the documented
semantics of the external `minimatch` library; character classes, brace
expansion and extglobs are not exercised by the claims. -/
def matchSeg : List Char → List Char → Bool
  | [], s => s.isEmpty
  | '*' :: ps, s => (s.tails).any (fun t => matchSeg ps t)
  | '?' :: ps, s =>
    match s with
    | [] => false
    | _ :: ss => matchSeg ps ss
  | p :: ps, s =>
    match s with
    | [] => false
    | c :: ss => p = c && matchSeg ps ss

/-- Glob match of a pattern segment list against a path segment list;
a `**` pattern segment may swallow any number of leading path segments. -/
def matchSegs : List (List Char) → List (List Char) → Bool
  | [], ss => ss.isEmpty
  | p :: ps, ss =>
    if p = ['*', '*'] then
      (ss.tails).any (fun t => matchSegs ps t)
    else
      match ss with
      | [] => false
      | s :: ss2 => matchSeg p s && matchSegs ps ss2

/-- Model of `minimatch(path, pattern, { matchBase })`: with `matchBase`
set, a pattern containing no slash is matched against the basename of the
path; otherwise pattern and path are matched segment-wise. -/
def minimatchModel (p : String) (pattern : String) (matchBase : Bool) : Bool :=
  if matchBase && !(pattern.data.contains '/') then
    matchSeg pattern.data (basenameChars p)
  else
    matchSegs (segs pattern.data) (segs p.data)

/-- Model of Node's `path.relative(baseDir, filePath)` for the only case
the pipeline exercises: `filePath` lying inside `baseDir`. -/
def relativeModel (baseDir filePath : String) : String :=
  if baseDir = "" then filePath
  else if (baseDir.data ++ ['/']).isPrefixOf filePath.data then
    ⟨filePath.data.drop (baseDir.data.length + 1)⟩
  else filePath

/-- Embedding of `shouldIgnoreFile` (src/src/utils.ts, lines 36–46):
an empty pattern list ignores nothing, otherwise the site-relative path is
tested against each pattern with `minimatch` in `matchBase` mode. -/
def shouldIgnoreFile (filePath baseDir : String) (ignorePatterns : List String) : Bool :=
  if ignorePatterns.length = 0 then false
  else
    let relativePath := relativeModel baseDir filePath
    ignorePatterns.any (fun pattern => minimatchModel relativePath pattern true)

/-!  Selection and ordering: the pure core of `processFilesWithPatterns`
(src/src/processor.ts, lines 181–239).  Files are identified here by their
site-relative paths, and the glob matcher is passed as a parameter standing
for `minimatch(relativePath, pattern, { matchBase: true })`. -/

/-- The ordering loop of `processFilesWithPatterns`: iterate the order
patterns, and for each one append every filtered file that matches it and
is not yet in the `matchedFiles` set.  Returns the ordered output together
with the final `matchedFiles` set (modelled as a list with `contains`
membership, mirroring the JavaScript `Set`). -/
def orderLoop (matchF : String → String → Bool) (filteredFiles : List String) :
    List String → List String → List String × List String
  | [], matchedFiles => ([], matchedFiles)
  | pattern :: ps, matchedFiles =>
    let matchingFiles := filteredFiles.filter
      (fun file => matchF file pattern && !(matchedFiles.contains file))
    let rest := orderLoop matchF filteredFiles ps (matchedFiles ++ matchingFiles)
    (matchingFiles ++ rest.1, rest.2)

/-- The selection core of `processFilesWithPatterns`: include filter, then
ignore filter, then the ordering loop, then (only when `includeUnmatched`)
the files never claimed by any order pattern, in corpus order. -/
def selectFiles (matchF : String → String → Bool) (allFiles : List String)
    (includePatterns ignorePatterns orderPatterns : List String)
    (includeUnmatched : Bool) : List String :=
  let filtered1 :=
    if includePatterns.length > 0 then
      allFiles.filter (fun file => includePatterns.any (fun pattern => matchF file pattern))
    else allFiles
  let filteredFiles :=
    if ignorePatterns.length > 0 then
      filtered1.filter (fun file => !(ignorePatterns.any (fun pattern => matchF file pattern)))
    else filtered1
  if orderPatterns.length > 0 then
    let ordered := orderLoop matchF filteredFiles orderPatterns []
    ordered.1 ++
      (if includeUnmatched then
        filteredFiles.filter (fun file => !(ordered.2.contains file))
      else [])
  else
    filteredFiles

/-- Second definition, following the specification's words, for the
refinement comparison of claim C1: each file belongs to the bucket of the
*first* order pattern it matches (it is "claimed" there and not
reconsidered), buckets are emitted in pattern sequence, and each bucket
lists its files in corpus iteration order.  `earlier` accumulates the
patterns already processed. -/
def firstMatchBuckets (matchF : String → String → Bool) (corpus : List String) :
    List String → List String → List String
  | [], _ => []
  | pattern :: ps, earlier =>
    corpus.filter
        (fun f => matchF f pattern && !(earlier.any (fun q => matchF f q)))
      ++ firstMatchBuckets matchF corpus ps (earlier ++ [pattern])

theorem contains_eq_decide_mem {α : Type} [BEq α] [LawfulBEq α]
    (l : List α) (a : α) :
    l.contains a = decide (a ∈ l) := by
  simp [List.contains, List.elem_eq_mem]

/-- Key invariant linking the code's `matchedFiles` set to the
specification's "claimed by an earlier pattern" description. -/
theorem orderLoop_eq_buckets (matchF : String → String → Bool)
    (corpus : List String) (ps : List String) :
    ∀ (matched earlier : List String),
      (∀ f, f ∈ corpus → (matched.contains f = earlier.any (fun q => matchF f q))) →
      (orderLoop matchF corpus ps matched).1 =
        firstMatchBuckets matchF corpus ps earlier := by
  induction ps with
  | nil => intro matched earlier _; rfl
  | cons pattern ps ih =>
    intro matched earlier hinv
    have hfilter :
        corpus.filter (fun file => matchF file pattern && !(matched.contains file)) =
        corpus.filter
          (fun f => matchF f pattern && !(earlier.any (fun q => matchF f q))) := by
      apply List.filter_congr
      intro f hf
      rw [hinv f hf]
    have hnext :
        ∀ f, f ∈ corpus →
          ((matched ++ corpus.filter
              (fun file => matchF file pattern && !(matched.contains file))).contains f =
            (earlier ++ [pattern]).any (fun q => matchF f q)) := by
      intro f hf
      have h1 := hinv f hf
      rw [contains_eq_decide_mem] at h1 ⊢
      rw [List.any_append, List.any_cons, List.any_nil, ← h1]
      by_cases hmem : f ∈ matched
      · simp [List.mem_append, hmem]
      · by_cases hm : matchF f pattern
        · have hfmem : f ∈ corpus.filter
              (fun file => matchF file pattern && !(matched.contains file)) := by
            rw [List.mem_filter]
            refine ⟨hf, ?_⟩
            rw [contains_eq_decide_mem]
            simp [hm, hmem]
          simp [List.mem_append, hmem, hfmem, hm, hf]
        · have hfmem : f ∉ corpus.filter
              (fun file => matchF file pattern && !(matched.contains file)) := by
            rw [List.mem_filter]
            intro hc
            exact hm (Bool.and_elim_left hc.2)
          simp [List.mem_append, hmem, hfmem, hm]
    simp only [orderLoop, firstMatchBuckets]
    rw [hfilter]
    congr 1
    rw [← hfilter]
    exact ih _ _ hnext

/-- Claim C1 (amended): for every corpus and nonempty order-pattern list,
selection (with empty include/ignore lists) emits, for each order pattern
in sequence, the files matching that pattern and no earlier pattern, in
corpus iteration order; on the spec's concrete example the b-bucket keeps
corpus order, so the result is [a/1, a/2, b/2, b/1]
(not [a/1, a/2, b/1, b/2]). -/
theorem C1_amended :
    (∀ (matchF : String → String → Bool) (corpus : List String)
        (p : String) (ps : List String),
        selectFiles matchF corpus [] [] (p :: ps) false =
          firstMatchBuckets matchF corpus (p :: ps) []) ∧
    selectFiles (fun f pattern => minimatchModel f pattern true)
        ["b/2", "a/1", "b/1", "a/2"] [] [] ["a/*", "b/*"] false
      = ["a/1", "a/2", "b/2", "b/1"] := by
  constructor
  · intro matchF corpus p ps
    have h := orderLoop_eq_buckets matchF corpus (p :: ps) [] [] (fun f _ => rfl)
    simp [selectFiles, h]
  · decide

/-- Claim C1 as stated is false: on the spec's own example the code yields
[a/1, a/2, b/2, b/1], because the files matching "b/\*" are pulled in their
corpus iteration order (b/2 before b/1), not sorted. -/
theorem C1_counterexample :
    selectFiles (fun f pattern => minimatchModel f pattern true)
        ["b/2", "a/1", "b/1", "a/2"] [] [] ["a/*", "b/*"] false
      = ["a/1", "a/2", "b/2", "b/1"] ∧
    (["a/1", "a/2", "b/2", "b/1"] : List String) ≠ ["a/1", "a/2", "b/1", "b/2"] := by
  constructor
  · decide
  · decide

/-! Basic facts about the segment decomposition of paths. -/

theorem segs_ne_nil (s : List Char) : segs s ≠ [] := by
  match s with
  | [] => simp [segs]
  | c :: cs =>
    by_cases h : c = '/'
    · simp [segs, h]
    · have := segs_ne_nil cs
      simp only [segs, if_neg h]
      match hcs : segs cs with
      | [] => exact absurd hcs this
      | w :: ws => simp

theorem segs_append_slash (u v : List Char) :
    segs (u ++ '/' :: v) = segs u ++ segs v := by
  induction u with
  | nil => simp [segs]
  | cons c u ih =>
    by_cases h : c = '/'
    · simp [segs, h, ih]
    · simp only [List.cons_append, segs, if_neg h]
      simp only [List.append_eq]
      rw [ih]
      match hu : segs u with
      | [] => exact absurd hu (segs_ne_nil u)
      | w :: ws => simp

theorem segs_slash_free (s : List Char) (h : s.contains '/' = false) :
    segs s = [s] := by
  induction s with
  | nil => rfl
  | cons c cs ih =>
    simp only [List.contains_cons, Bool.or_eq_false_iff] at h
    have hc : ¬ c = '/' := by
      intro he
      simp [he] at h
    rw [segs, if_neg hc, ih h.2]

theorem basename_of_append (dirPath name : String)
    (h : name.data.contains '/' = false) :
    basenameChars (dirPath ++ "/" ++ name) = name.data := by
  show (segs (dirPath ++ "/" ++ name).data).getLastD [] = name.data
  have hdata : (dirPath ++ "/" ++ name).data = dirPath.data ++ '/' :: name.data := by
    simp [String.data_append]
  rw [hdata, segs_append_slash, segs_slash_free name.data h]
  rw [List.getLastD_concat]

/-!  File discovery: `readMarkdownFiles` (src/src/utils.ts, lines 55–78),
embedded over an explicit directory tree. -/

/-- A file-system tree: plain files and directories with entries. -/
inductive FSEntry where
  | file (name : String)
  | dir (name : String) (entries : List FSEntry)

/-- Model of Node's `path.join(dir, name)` with forward slashes. -/
def joinPath (dir name : String) : String := dir ++ "/" ++ name

mutual

/-- Embedding of the body of the `for (const entry of entries)` loop of
`readMarkdownFiles`: ignored entries contribute nothing, directories
recurse, and a Markdown/MDX file is collected unless its name starts with
an underscore (partial files are skipped). -/
def readEntry (baseDir : String) (ignorePatterns : List String)
    (dir : String) : FSEntry → List String
  | .file name =>
    let fullPath := joinPath dir name
    if shouldIgnoreFile fullPath baseDir ignorePatterns then []
    else if strEndsWith name ".md" || strEndsWith name ".mdx" then
      if !(strStartsWith name "_") then [fullPath] else []
    else []
  | .dir name entries =>
    let fullPath := joinPath dir name
    if shouldIgnoreFile fullPath baseDir ignorePatterns then []
    else readEntries baseDir ignorePatterns fullPath entries
termination_by structural entry => entry

/-- Embedding of `readMarkdownFiles` over the entry list of a directory. -/
def readEntries (baseDir : String) (ignorePatterns : List String)
    (dir : String) : List FSEntry → List String
  | [] => []
  | entry :: rest =>
    readEntry baseDir ignorePatterns dir entry
      ++ readEntries baseDir ignorePatterns dir rest
termination_by structural entries => entries

end

mutual

/-- Well-formedness of a tree entry: entry names contain no slash
(as is true of real directory entries). -/
def FSEntry.wfNames : FSEntry → Prop
  | .file name => name.data.contains '/' = false
  | .dir name entries => name.data.contains '/' = false ∧ FSEntry.wfList entries

/-- Well-formedness of a list of tree entries. -/
def FSEntry.wfList : List FSEntry → Prop
  | [] => True
  | e :: rest => FSEntry.wfNames e ∧ FSEntry.wfList rest

end

mutual

theorem readEntry_no_underscore (baseDir : String) (ignorePatterns : List String)
    (dir : String) (entry : FSEntry) (hwf : FSEntry.wfNames entry) :
    ∀ p ∈ readEntry baseDir ignorePatterns dir entry,
      strStartsWith (String.mk (basenameChars p)) "_" = false := by
  match entry with
  | .file name =>
    intro p hp
    simp only [readEntry] at hp
    split at hp
    · simp at hp
    · split at hp
      · split at hp
        · simp only [List.mem_singleton] at hp
          subst hp
          rw [show joinPath dir name = dir ++ "/" ++ name from rfl,
            basename_of_append dir name hwf]
          rename_i hns
          simpa using hns
        · simp at hp
      · simp at hp
  | .dir name entries =>
    intro p hp
    simp only [readEntry] at hp
    split at hp
    · simp at hp
    · exact readEntries_no_underscore baseDir ignorePatterns
        (joinPath dir name) entries hwf.2 p hp

theorem readEntries_no_underscore (baseDir : String) (ignorePatterns : List String)
    (dir : String) (entries : List FSEntry) (hwf : FSEntry.wfList entries) :
    ∀ p ∈ readEntries baseDir ignorePatterns dir entries,
      strStartsWith (String.mk (basenameChars p)) "_" = false := by
  match entries with
  | [] =>
    intro p hp
    simp [readEntries] at hp
  | entry :: rest =>
    intro p hp
    simp only [readEntries, List.mem_append] at hp
    rcases hp with hp | hp
    · exact readEntry_no_underscore baseDir ignorePatterns dir entry hwf.1 p hp
    · exact readEntries_no_underscore baseDir ignorePatterns dir rest hwf.2 p hp

end

/-- Claim C9: file discovery never places a Markdown/MDX file whose
filename begins with an underscore into the corpus: every path collected
by `readMarkdownFiles` has a basename that does not start with `_`. -/
theorem C9_theorem (baseDir : String) (ignorePatterns : List String)
    (dir : String) (entries : List FSEntry) (hwf : FSEntry.wfList entries) :
    ∀ p ∈ readEntries baseDir ignorePatterns dir entries,
      strStartsWith (String.mk (basenameChars p)) "_" = false :=
  readEntries_no_underscore baseDir ignorePatterns dir entries hwf

/-- Witness for C9 on a concrete tree containing a partial file. -/
theorem C9_witness :
    readEntries "" [] "site"
        [FSEntry.dir "docs" [FSEntry.file "intro.md", FSEntry.file "_partial.md"]]
      = ["site/docs/intro.md"] ∧
    strStartsWith (String.mk (basenameChars "site/docs/intro.md")) "_" = false := by
  constructor
  · rfl
  · exact C9_theorem "" [] "site"
      [FSEntry.dir "docs" [FSEntry.file "intro.md", FSEntry.file "_partial.md"]]
      (by constructor <;> simp [FSEntry.wfNames, FSEntry.wfList])
      "site/docs/intro.md" (by decide)

/-- Claim C10: patterns without a path separator are matched against the
basename alone, at any directory depth; in particular the ignore pattern
"secret.md" excludes docs/a/b/secret.md both in `shouldIgnoreFile` and in
the selection filter of `processFilesWithPatterns`. -/
theorem C10_theorem :
    (∀ (pattern dirPath name : String),
        pattern.data.contains '/' = false →
        name.data.contains '/' = false →
        minimatchModel (dirPath ++ "/" ++ name) pattern true
          = matchSeg pattern.data name.data) ∧
    shouldIgnoreFile "/site/docs/a/b/secret.md" "/site" ["secret.md"] = true ∧
    selectFiles (fun f pattern => minimatchModel f pattern true)
        ["docs/a/b/secret.md", "docs/ok.md"] [] ["secret.md"] [] false
      = ["docs/ok.md"] := by
  refine ⟨?_, by decide, by decide⟩
  intro pattern dirPath name hpat hname
  rw [minimatchModel, if_pos (by simpa using hpat), basename_of_append dirPath name hname]

/-- Witness for C10 at a concrete depth-three path. -/
theorem C10_witness :
    minimatchModel ("docs/a/b" ++ "/" ++ "secret.md") "secret.md" true
      = matchSeg "secret.md".data "secret.md".data :=
  C10_theorem.1 "secret.md" "docs/a/b" "secret.md" (by decide) (by decide)

/-!  Data model: frontmatter values and processed document records
(src/src/types.ts). -/

/-- Frontmatter values as parsed by gray-matter, restricted to the scalar
shapes the pipeline inspects. -/
inductive FMValue where
  | str (s : String)
  | bool (b : Bool)
  | num (n : Int)
deriving DecidableEq

/-- JavaScript truthiness of a frontmatter value (`if (data.title)`). -/
def FMValue.truthy : FMValue → Bool
  | .str s => !(s = "")
  | .bool b => b
  | .num n => !(n = 0)

/-- String coercion of a frontmatter value (for values flowing into string
positions; in practice the pipeline only ever coerces `str` values). -/
def FMValue.asString : FMValue → String
  | .str s => s
  | .bool b => if b then "true" else "false"
  | .num n => toString n

/-- The frontmatter keys the pipeline consults.  The original is an open
string-keyed map; only these keys are ever read by the embedded code. -/
structure FrontMatter where
  title : Option FMValue := none
  description : Option FMValue := none
  draft : Option FMValue := none
  slug : Option FMValue := none
  id : Option FMValue := none
deriving DecidableEq

/-- Processed document information (src/src/types.ts, `DocInfo`). -/
structure DocInfo where
  title : String
  path : String
  url : String
  content : String
  description : String
  frontMatter : Option FrontMatter := none
deriving DecidableEq

/-- Custom LLM file configuration (src/src/types.ts, `CustomLLMFile`);
title/description/rootContent overrides are omitted here because no claim
inspects them. -/
structure CustomLLMFile where
  filename : String
  includePatterns : List String
  fullContent : Bool
  ignorePatterns : Option (List String) := none
  orderPatterns : Option (List String) := none
  includeUnmatchedLast : Option Bool := none
  version : Option String := none
deriving DecidableEq

/-!  Write plans: the output decisions of the generator
(src/src/generator.ts), with the actual file I/O abstracted into a
description of which artifacts would be written. -/

/-- A planned artifact write: output filename, full-content mode, and the
documents that would be rendered into it. -/
structure WritePlan where
  filename : String
  fullContent : Bool
  docs : List DocInfo
deriving DecidableEq

/-- The options consulted by `generateStandardLLMFiles`. -/
structure StandardOptions where
  generateLLMsTxt : Bool := true
  generateLLMsFullTxt : Bool := true
  llmsTxtFilename : String := "llms.txt"
  llmsFullTxtFilename : String := "llms-full.txt"
deriving DecidableEq

/-- The write decisions of `generateStandardLLMFiles` (src/src/generator.ts,
lines 245–325) over the already-processed document list: if neither
standard file is requested nothing happens; otherwise each requested
standard file is written — the document list is not checked for emptiness.
(The `generateMarkdownFiles` side path rewrites document URLs but does not
change which standard artifacts are written.) -/
def generateStandardLLMFilesPlan (opts : StandardOptions)
    (processedDocs : List DocInfo) : List WritePlan :=
  if !opts.generateLLMsTxt && !opts.generateLLMsFullTxt then []
  else
    (if opts.generateLLMsTxt then
      [⟨opts.llmsTxtFilename, false, processedDocs⟩]
    else []) ++
    (if opts.generateLLMsFullTxt then
      [⟨opts.llmsFullTxtFilename, true, processedDocs⟩]
    else [])

/-- The write/warn decisions of `generateCustomLLMFiles`
(src/src/generator.ts, lines 332–398).  Per-target document selection runs
`processFilesWithPatterns`, abstracted here as `docsFor`; a custom file
with at least one document is written, one with none produces a warning
(recorded by filename) and no write. -/
def generateCustomLLMFilesPlan (docsFor : CustomLLMFile → List DocInfo) :
    List CustomLLMFile → List WritePlan × List String
  | [] => ([], [])
  | customFile :: rest =>
    let customDocs := docsFor customFile
    let restPlan := generateCustomLLMFilesPlan docsFor rest
    if customDocs.length > 0 then
      (⟨customFile.filename, customFile.fullContent, customDocs⟩ :: restPlan.1,
        restPlan.2)
    else
      (restPlan.1, customFile.filename :: restPlan.2)

/-- Claim C6 as stated is false for the standard targets: with default
options and an empty processed-document list (selection yielded zero
Documents), `generateStandardLLMFiles` still writes both llms.txt and
llms-full.txt instead of warning and skipping. -/
theorem C6_counterexample :
    generateStandardLLMFilesPlan {} [] =
      [⟨"llms.txt", false, []⟩, ⟨"llms-full.txt", true, []⟩] ∧
    generateStandardLLMFilesPlan {} [] ≠ [] := by
  constructor
  · decide
  · decide

/-- Claim C6 (amended): a *custom* target whose selection yields zero
Documents produces a warning and no write (so every custom write carries
at least one document), while the *standard* targets write their artifacts
regardless of how many Documents their selection produced. -/
theorem C6_amended :
    (∀ (docsFor : CustomLLMFile → List DocInfo) (customs : List CustomLLMFile)
        (c : CustomLLMFile), c ∈ customs → docsFor c = [] →
        c.filename ∈ (generateCustomLLMFilesPlan docsFor customs).2) ∧
    (∀ (docsFor : CustomLLMFile → List DocInfo) (customs : List CustomLLMFile),
        ∀ w ∈ (generateCustomLLMFilesPlan docsFor customs).1, w.docs ≠ []) ∧
    (∀ (opts : StandardOptions) (docs : List DocInfo),
        opts.generateLLMsTxt = true →
        WritePlan.mk opts.llmsTxtFilename false docs ∈
          generateStandardLLMFilesPlan opts docs) := by
  refine ⟨?_, ?_, ?_⟩
  · intro docsFor customs
    induction customs with
    | nil => intro c hc; simp at hc
    | cons customFile rest ih =>
      intro c hc hempty
      simp only [generateCustomLLMFilesPlan]
      rcases List.mem_cons.mp hc with hceq | hcrest
      · subst hceq
        rw [if_neg (by simp [hempty])]
        exact List.mem_cons_self _ _
      · by_cases hlen : (docsFor customFile).length > 0
        · rw [if_pos hlen]
          exact ih c hcrest hempty
        · rw [if_neg hlen]
          exact List.mem_cons_of_mem _ (ih c hcrest hempty)
  · intro docsFor customs
    induction customs with
    | nil => intro w hw; simp [generateCustomLLMFilesPlan] at hw
    | cons customFile rest ih =>
      intro w hw
      simp only [generateCustomLLMFilesPlan] at hw
      by_cases hlen : (docsFor customFile).length > 0
      · rw [if_pos hlen] at hw
        rcases List.mem_cons.mp hw with hweq | hwrest
        · subst hweq
          intro hnil
          have h2 : docsFor customFile = [] := hnil
          simp [h2] at hlen
        · exact ih w hwrest
      · rw [if_neg hlen] at hw
        exact ih w hw
  · intro opts docs htxt
    simp [generateStandardLLMFilesPlan, htxt]

/-- Witness for C6 (amended) at a concrete empty custom target and the
default standard options with an empty document list. -/
theorem C6_witness :
    ("llms-python.txt" : String) ∈
      (generateCustomLLMFilesPlan (fun _ => [])
        [CustomLLMFile.mk "llms-python.txt" ["python/**"] false none none none none]).2 ∧
    WritePlan.mk "llms.txt" false ([] : List DocInfo) ∈
      generateStandardLLMFilesPlan {} [] :=
  ⟨C6_amended.1 (fun _ => [])
      [CustomLLMFile.mk "llms-python.txt" ["python/**"] false none none none none]
      (CustomLLMFile.mk "llms-python.txt" ["python/**"] false none none none none)
      (List.mem_singleton_self _) rfl,
    C6_amended.2.2 {} [] rfl⟩

/-!  Individual markdown file generation: filename derivation of
`generateIndividualMarkdownFiles` (src/src/generator.ts, lines 155–238). -/

/-- Lower-casing on the character list (JavaScript `toLowerCase`,
ASCII part). -/
def strToLower (s : String) : String := ⟨s.data.map Char.toLower⟩

/-- Collapse runs of dashes to a single dash; `prevDash` records whether
the previous kept character was a dash. -/
def collapseRuns : List Char → Bool → List Char
  | [], _ => []
  | c :: rest, prevDash =>
    if c = '-' then
      if prevDash then collapseRuns rest true
      else '-' :: collapseRuns rest true
    else c :: collapseRuns rest false

/-- Modelled from the spec: `sanitizeForFilename` is imported by
src/src/generator.ts from ./utils, but its definition is not among the
given sources; the spec says only that a "sanitized title" (or sanitized
path) is used.  Modelled as: every non-alphanumeric character becomes a
dash, runs of dashes collapse, dashes are trimmed at both ends, and the
fallback name is used when nothing remains. -/
def sanitizeForFilename (s fallback : String) : String :=
  let dashed := s.data.map (fun c => if c.isAlphanum then c else '-')
  let collapsed := collapseRuns dashed false
  let trimmed := (collapsed.dropWhile (· = '-')).reverse.dropWhile (· = '-') |>.reverse
  if trimmed = [] then fallback else ⟨trimmed⟩

/-- `doc.path.replace(/\.mdx?$/, '.md')`: a trailing `.mdx` (or `.md`)
becomes `.md`. -/
def replaceMdxExt (p : String) : String :=
  if strEndsWith p ".mdx" then String.mk (p.data.take (p.data.length - 4)) ++ ".md"
  else p

/-- Character-level split on a separator (JavaScript `String.split`). -/
def splitChar (sep : Char) : List Char → List (List Char)
  | [] => [[]]
  | c :: cs =>
    if c = sep then [] :: splitChar sep cs
    else
      match splitChar sep cs with
      | [] => [[c]]
      | w :: ws => (c :: w) :: ws

/-- The de-duplication candidate for counter `k ≥ 2`:
split the path on ".", pop the extension (with "md" as the fallback
when the popped value is falsy), and rebuild as `base-k.ext`. -/
def candidatePath (relativePath : String) (counter : Nat) : String :=
  let pathParts := (splitChar '.' relativePath.data).map (fun l => (⟨l⟩ : String))
  match pathParts.reverse with
  | [] => relativePath
  | e :: restRev =>
    let extension := if e = "" then "md" else e
    let basePath := String.intercalate "." restRev.reverse
    basePath ++ "-" ++ toString counter ++ "." ++ extension

/-- The `while (usedPaths.has(uniquePath.toLowerCase()))` loop: try the
path itself, then `base-2.ext`, `base-3.ext`, … .  The loop is bounded by
`fuel`; since the candidates are pairwise distinct, `usedPaths.length + 1`
attempts always find a free one. -/
def findUniquePathAux (usedPaths : List String) (relativePath : String) :
    Nat → Nat → String
  | 0, counter => candidatePath relativePath counter
  | fuel + 1, counter =>
    let uniquePath :=
      if counter = 1 then relativePath else candidatePath relativePath counter
    if usedPaths.contains (strToLower uniquePath) then
      findUniquePathAux usedPaths relativePath fuel (counter + 1)
    else uniquePath

/-- Collision-safe path choice of `generateIndividualMarkdownFiles`. -/
def findUniquePath (usedPaths : List String) (relativePath : String) : String :=
  findUniquePathAux usedPaths relativePath (usedPaths.length + 1) 1

/-- The filename derivation of `generateIndividualMarkdownFiles`
(src/src/generator.ts, lines 155–238), returning the relative output path
chosen for each document, in order.  The derivation starts from
`doc.path` (leading slashes stripped, `.mdx` normalized to `.md`, the
configured docs-dir prefix removed, sanitized-title fallback for an empty
result); the frontmatter `slug` and `id` fields are never consulted. -/
def individualFilePathsAux (docsDir : String) :
    List DocInfo → List String → List String
  | [], _ => []
  | doc :: rest, usedPaths =>
    let step1 := String.mk (doc.path.data.dropWhile (· = '/'))
    let step2 := replaceMdxExt step1
    let relativePath :=
      if strStartsWith step2 (docsDir ++ "/") then
        String.mk (step2.data.drop (docsDir.data.length + 1))
      else step2
    let relativePath2 :=
      if relativePath = "" || relativePath = ".md" then
        sanitizeForFilename doc.title "untitled" ++ ".md"
      else relativePath
    let uniquePath := findUniquePath usedPaths relativePath2
    uniquePath ::
      individualFilePathsAux docsDir rest (usedPaths ++ [strToLower uniquePath])

/-- Output paths chosen for a document list. -/
def individualFilePaths (docsDir : String) (docs : List DocInfo) : List String :=
  individualFilePathsAux docsDir docs []

/-- Claim C4: the code contradicts the repository's own test
(src/tests/test-filenames.js, "Uses slug for filename when slug present"):
for a document at docs/guides/config.md with frontmatter slug
custom-config-slug, the code derives guides/config.md from the source
path, never consulting slug (or id), while the spec and the test expect
guides/custom-config-slug.md. -/
theorem C4_code_bug :
    individualFilePaths "docs"
        [DocInfo.mk "config Title" "docs/guides/config.md"
          "https://example.com/docs/guides/config.md"
          "This is config content." "config documentation"
          (some { slug := some (FMValue.str "custom-config-slug") })]
      = ["guides/config.md"] ∧
    (["guides/config.md"] : List String) ≠ ["guides/custom-config-slug.md"] := by
  constructor
  · decide
  · decide

/-!  Partial-import detection: the first pass of `resolvePartialImports`
(src/src/utils.ts, lines 111–130).  The import-detection regular
expression is embedded per import statement (one line):
`^\s*import\s+(?:(\w+)|{\s*(\w+)\s*})\s+from\s+[quote]([^quotes]+_[^quotes]+\.mdx?)[quote];?\s*$`. -/

/-- The tail condition of the path piece `[^quotes]+\.mdx?` placed at the
very end of the capture: the remainder after the underscore must consist
of at least one character followed by the literal extension `.md` or
`.mdx`. -/
def extOk (y : List Char) : Bool :=
  (".mdx".data.isSuffixOf y && decide (4 < y.length)) ||
    (".md".data.isSuffixOf y && decide (3 < y.length))

/-- Backtracking scan for the `_` of `[^quotes]+_[^quotes]+\.mdx?`:
try the underscore at the current position, else extend the first
`[^quotes]+` by one character. -/
def matchAfterA : List Char → Bool
  | [] => false
  | c :: rest => (c = '_' && extOk rest) || matchAfterA rest

/-- Match of `[^quotes]+_[^quotes]+\.mdx?` against the whole (quote-free)
captured path: at least one character, then an underscore with a
non-empty tail ending in the extension. -/
def matchPartialPath : List Char → Bool
  | [] => false
  | _ :: rest => matchAfterA rest

/-- The identifier part `(?:(\w+)|{\s*(\w+)\s*})` of the import regex. -/
def parseIdentPart (s : List Char) : Option (List Char × List Char) :=
  match s with
  | [] => none
  | c :: s1 =>
    if c = '{' then
      let s2 := s1.dropWhile isSpaceChar
      let name := s2.takeWhile isWordChar
      let s3 := s2.dropWhile isWordChar
      let s4 := s3.dropWhile isSpaceChar
      if name = [] then none
      else
        match s4 with
        | '}' :: s5 => some (name, s5)
        | _ => none
    else
      let name := (c :: s1).takeWhile isWordChar
      let s1b := (c :: s1).dropWhile isWordChar
      if name = [] then none else some (name, s1b)

/-- `true` for a quote character (the regex class `[quote]`). -/
def isQuoteChar (c : Char) : Bool := c = '\'' || c = '"'

/-- The import-detection regex of `resolvePartialImports` applied to one
line, returning the component name and the captured import path. -/
def lineMatchesImport (line : String) : Option (String × String) :=
  let s0 := line.data.dropWhile isSpaceChar
  if "import".data.isPrefixOf s0 then
    let s1 := s0.drop 6
    if (s1.takeWhile isSpaceChar) = [] then none
    else
      let s2 := s1.dropWhile isSpaceChar
      match parseIdentPart s2 with
      | none => none
      | some (componentName, s3) =>
        if (s3.takeWhile isSpaceChar) = [] then none
        else
          let s4 := s3.dropWhile isSpaceChar
          if "from".data.isPrefixOf s4 then
            let s5 := s4.drop 4
            if (s5.takeWhile isSpaceChar) = [] then none
            else
              let s6 := s5.dropWhile isSpaceChar
              match s6 with
              | [] => none
              | q :: s7 =>
                if isQuoteChar q then
                  let importPath := s7.takeWhile (fun c => !(isQuoteChar c))
                  let s8 := s7.dropWhile (fun c => !(isQuoteChar c))
                  match s8 with
                  | [] => none
                  | q2 :: s9 =>
                    if isQuoteChar q2 && matchPartialPath importPath then
                      let s10 :=
                        match s9 with
                        | ';' :: t => t
                        | t => t
                      if (s10.dropWhile isSpaceChar) = [] then
                        some (⟨componentName⟩, ⟨importPath⟩)
                      else none
                    else none
                else none
          else none
  else none

/-- The collection step of the first pass of `resolvePartialImports`
(src/src/utils.ts, lines 120–130): a binding is recorded when the import
regex matches and the captured path contains an underscore (the latter
guard is already implied by the regex). -/
def detectPartialImport (line : String) : Option (String × String) :=
  match lineMatchesImport line with
  | some (componentName, importPath) =>
    if importPath.data.contains '_' then some (componentName, importPath)
    else none
  | none => none

/-- The claim's criterion: some `/`-separated segment of the path begins
with an underscore. -/
def hasUnderscoreSegment (path : String) : Bool :=
  (segs path.data).any (fun seg =>
    match seg with
    | '_' :: _ => true
    | _ => false)

/-- The code's actual criterion, characterized (amended-claim side): the
path ends in `.md` or `.mdx`, and the pre-extension stem contains an
underscore that is neither its first nor its last character. -/
def partialPathFormChars (r : List Char) : Bool :=
  if ".mdx".data.isSuffixOf r then
    ((r.take (r.length - 4)).drop 1).dropLast.contains '_'
  else if ".md".data.isSuffixOf r then
    ((r.take (r.length - 3)).drop 1).dropLast.contains '_'
  else false

/-!  Scanning toolkit used by the regex-model proofs. -/

theorem takeWhile_append_all {p : Char → Bool} (l₁ l₂ : List Char)
    (h : ∀ c ∈ l₁, p c = true) :
    (l₁ ++ l₂).takeWhile p = l₁ ++ l₂.takeWhile p := by
  induction l₁ with
  | nil => simp
  | cons c l ih =>
    rw [List.cons_append, List.takeWhile_cons, if_pos (h c (List.mem_cons_self c l)),
      ih (fun d hd => h d (List.mem_cons_of_mem c hd)), List.cons_append]

theorem dropWhile_append_all {p : Char → Bool} (l₁ l₂ : List Char)
    (h : ∀ c ∈ l₁, p c = true) :
    (l₁ ++ l₂).dropWhile p = l₂.dropWhile p := by
  induction l₁ with
  | nil => simp
  | cons c l ih =>
    rw [List.cons_append, List.dropWhile_cons, if_pos (h c (List.mem_cons_self c l))]
    exact ih (fun d hd => h d (List.mem_cons_of_mem c hd))

theorem word_not_space {c : Char} (h : isWordChar c = true) :
    isSpaceChar c = false := by
  by_contra hs
  rw [Bool.not_eq_false] at hs
  simp only [isSpaceChar, Bool.or_eq_true, decide_eq_true_eq] at hs
  rcases hs with ((((h1 | h1) | h1) | h1) | h1) | h1 <;> subst h1 <;>
    exact absurd h (by decide)

theorem word_not_brace {c : Char} (h : isWordChar c = true) : ¬ c = '{' := by
  intro he
  subst he
  exact absurd h (by decide)

theorem exists_of_mem_dropLast {a : Char} :
    ∀ {l : List Char}, a ∈ l.dropLast → ∃ u v, l = u ++ a :: v ∧ v ≠ [] := by
  intro l
  match l with
  | [] => intro h; simp at h
  | [x] => intro h; simp at h
  | x :: y :: rest =>
    intro h
    rw [List.dropLast_cons₂] at h
    rcases List.mem_cons.mp h with heq | htail
    · exact ⟨[], y :: rest, by rw [heq]; rfl, by simp⟩
    · obtain ⟨u, v, huv, hv⟩ := exists_of_mem_dropLast htail
      exact ⟨x :: u, v, by rw [List.cons_append, huv], hv⟩

theorem mem_dropLast_of_append {a : Char} (u v : List Char) (hv : v ≠ []) :
    a ∈ (u ++ a :: v).dropLast := by
  rw [List.dropLast_append_of_ne_nil u (by simp),
    show (a :: v).dropLast = [a] ++ v.dropLast from
      List.dropLast_append_of_ne_nil [a] hv]
  exact List.mem_append_right u (List.mem_append_left _ (List.mem_singleton_self a))

theorem matchAfterA_iff (l : List Char) :
    matchAfterA l = true ↔ ∃ x y, l = x ++ '_' :: y ∧ extOk y = true := by
  induction l with
  | nil =>
    simp only [matchAfterA]
    constructor
    · intro h; exact absurd h (by decide)
    · rintro ⟨x, y, hxy, _⟩
      exact absurd hxy (by simp)
  | cons c rest ih =>
    simp only [matchAfterA, Bool.or_eq_true, Bool.and_eq_true, decide_eq_true_eq]
    constructor
    · rintro (⟨hc, hext⟩ | htail)
      · exact ⟨[], rest, by rw [hc]; rfl, hext⟩
      · obtain ⟨x, y, hxy, hext⟩ := ih.mp htail
        exact ⟨c :: x, y, by rw [List.cons_append, hxy], hext⟩
    · rintro ⟨x, y, hxy, hext⟩
      match x with
      | [] =>
        simp only [List.nil_append, List.cons.injEq] at hxy
        exact Or.inl ⟨hxy.1, by rw [hxy.2]; exact hext⟩
      | x0 :: xs =>
        simp only [List.cons_append, List.cons.injEq] at hxy
        exact Or.inr (ih.mpr ⟨xs, y, hxy.2, hext⟩)

theorem matchPartialPath_iff (r : List Char) :
    matchPartialPath r = true ↔
      ∃ a x y, r = a :: (x ++ '_' :: y) ∧ extOk y = true := by
  match r with
  | [] =>
    simp only [matchPartialPath]
    constructor
    · intro h; exact absurd h (by decide)
    · rintro ⟨a, x, y, hxy, _⟩; exact absurd hxy (by simp)
  | c :: rest =>
    simp only [matchPartialPath]
    rw [matchAfterA_iff]
    constructor
    · rintro ⟨x, y, hxy, hext⟩
      exact ⟨c, x, y, by rw [hxy], hext⟩
    · rintro ⟨a, x, y, hxy, hext⟩
      simp only [List.cons.injEq] at hxy
      exact ⟨x, y, hxy.2, hext⟩

theorem md_suffix_not_mdx {r : List Char} (h : ".md".data.isSuffixOf r = true) :
    ".mdx".data.isSuffixOf r = false := by
  rw [List.isSuffixOf_iff_suffix] at h
  obtain ⟨u, hu⟩ := h
  by_contra hx
  rw [Bool.not_eq_false, List.isSuffixOf_iff_suffix] at hx
  obtain ⟨v, hv⟩ := hx
  have hd : r.getLastD 'z' = 'd' := by
    rw [← hu, show u ++ ".md".data = (u ++ ['.', 'm']) ++ ['d'] by simp]
    exact List.getLastD_concat ..
  have hx2 : r.getLastD 'z' = 'x' := by
    rw [← hv, show v ++ ".mdx".data = (v ++ ['.', 'm', 'd']) ++ ['x'] by simp]
    exact List.getLastD_concat ..
  rw [hd] at hx2
  exact absurd hx2 (by decide)

theorem matchPartialPath_eq_form (r : List Char) :
    matchPartialPath r = partialPathFormChars r := by
  by_cases hm : matchPartialPath r = true
  · obtain ⟨a, x, y, hr, hext⟩ := (matchPartialPath_iff r).mp hm
    rw [hm]
    simp only [extOk, Bool.or_eq_true, Bool.and_eq_true, decide_eq_true_eq] at hext
    rcases hext with ⟨hsuf, hlen⟩ | ⟨hsuf, hlen⟩
    · -- extension .mdx
      rw [List.isSuffixOf_iff_suffix] at hsuf
      obtain ⟨B, hB⟩ := hsuf
      have hBne : B ≠ [] := by
        intro hBnil
        rw [hBnil, List.nil_append] at hB
        rw [← hB] at hlen
        exact absurd hlen (by decide)
      have hr2 : r = (a :: (x ++ '_' :: B)) ++ ".mdx".data := by
        rw [hr, ← hB]; simp
      have hsufr : ".mdx".data.isSuffixOf r = true := by
        rw [List.isSuffixOf_iff_suffix, hr2]
        exact ⟨a :: (x ++ '_' :: B), rfl⟩
      rw [partialPathFormChars, if_pos hsufr]
      have hstem : r.take (r.length - 4) = a :: (x ++ '_' :: B) := by
        rw [hr2, List.length_append]
        simp only [show (".mdx".data).length = 4 from rfl, Nat.add_sub_cancel]
        exact List.take_left ..
      rw [hstem]
      simp only [List.drop_one, List.tail_cons]
      symm
      rw [contains_eq_decide_mem, decide_eq_true_eq]
      exact mem_dropLast_of_append x B hBne
    · -- extension .md
      rw [List.isSuffixOf_iff_suffix] at hsuf
      obtain ⟨B, hB⟩ := hsuf
      have hBne : B ≠ [] := by
        intro hBnil
        rw [hBnil, List.nil_append] at hB
        rw [← hB] at hlen
        exact absurd hlen (by decide)
      have hr2 : r = (a :: (x ++ '_' :: B)) ++ ".md".data := by
        rw [hr, ← hB]; simp
      have hsufr : ".md".data.isSuffixOf r = true := by
        rw [List.isSuffixOf_iff_suffix, hr2]
        exact ⟨a :: (x ++ '_' :: B), rfl⟩
      rw [partialPathFormChars, if_neg (by simp [md_suffix_not_mdx hsufr]),
        if_pos hsufr]
      have hstem : r.take (r.length - 3) = a :: (x ++ '_' :: B) := by
        rw [hr2, List.length_append]
        simp only [show (".md".data).length = 3 from rfl, Nat.add_sub_cancel]
        exact List.take_left ..
      rw [hstem]
      simp only [List.drop_one, List.tail_cons]
      symm
      rw [contains_eq_decide_mem, decide_eq_true_eq]
      exact mem_dropLast_of_append x B hBne
  · rw [Bool.not_eq_true] at hm
    rw [hm]
    by_contra hform
    have hform2 : partialPathFormChars r = true := by
      cases hf : partialPathFormChars r
      · exact absurd hf.symm hform
      · rfl
    rw [partialPathFormChars] at hform2
    have hmt : matchPartialPath r = true := by
      rw [matchPartialPath_iff]
      split at hform2
      · rename_i hsuf
        rw [contains_eq_decide_mem, decide_eq_true_eq] at hform2
        obtain ⟨u, v, huv, hv⟩ := exists_of_mem_dropLast hform2
        rw [List.isSuffixOf_iff_suffix] at hsuf
        obtain ⟨s, hs⟩ := hsuf
        have hstem : r.take (r.length - 4) = s := by
          rw [← hs, List.length_append]
          simp only [show (".mdx".data).length = 4 from rfl, Nat.add_sub_cancel]
          exact List.take_left ..
        rw [hstem] at huv
        have hsne : s ≠ [] := by
          intro hse
          rw [hse] at huv
          simp at huv
        obtain ⟨s0, stail, hcons⟩ := List.exists_cons_of_ne_nil hsne
        have htail : stail = u ++ '_' :: v := by
          have : s.drop 1 = u ++ '_' :: v := huv
          rw [hcons] at this
          simpa using this
        refine ⟨s0, u, v ++ ".mdx".data, ?_, ?_⟩
        · rw [← hs, hcons, htail]; simp
        · simp only [extOk, Bool.or_eq_true, Bool.and_eq_true, decide_eq_true_eq]
          refine Or.inl ⟨?_, ?_⟩
          · rw [List.isSuffixOf_iff_suffix]; exact ⟨v, rfl⟩
          · rw [List.length_append]
            simp only [show (".mdx".data).length = 4 from rfl]
            have : 0 < v.length := List.length_pos.mpr hv
            omega
      · split at hform2
        · rename_i hnotx hsuf
          rw [contains_eq_decide_mem, decide_eq_true_eq] at hform2
          obtain ⟨u, v, huv, hv⟩ := exists_of_mem_dropLast hform2
          rw [List.isSuffixOf_iff_suffix] at hsuf
          obtain ⟨s, hs⟩ := hsuf
          have hstem : r.take (r.length - 3) = s := by
            rw [← hs, List.length_append]
            simp only [show (".md".data).length = 3 from rfl, Nat.add_sub_cancel]
            exact List.take_left ..
          rw [hstem] at huv
          have hsne : s ≠ [] := by
            intro hse
            rw [hse] at huv
            simp at huv
          obtain ⟨s0, stail, hcons⟩ := List.exists_cons_of_ne_nil hsne
          have htail : stail = u ++ '_' :: v := by
            have : s.drop 1 = u ++ '_' :: v := huv
            rw [hcons] at this
            simpa using this
          refine ⟨s0, u, v ++ ".md".data, ?_, ?_⟩
          · rw [← hs, hcons, htail]; simp
          · simp only [extOk, Bool.or_eq_true, Bool.and_eq_true, decide_eq_true_eq]
            refine Or.inr ⟨?_, ?_⟩
            · rw [List.isSuffixOf_iff_suffix]; exact ⟨v, rfl⟩
            · rw [List.length_append]
              simp only [show (".md".data).length = 3 from rfl]
              have : 0 < v.length := List.length_pos.mpr hv
              omega
        · exact absurd hform2 (by decide)
    rw [hmt] at hm
    exact absurd hm (by decide)

theorem takeWhile_name_space (nm t : List Char)
    (hw : ∀ c ∈ nm, isWordChar c = true) :
    (nm ++ (' ' :: t)).takeWhile isWordChar = nm := by
  rw [takeWhile_append_all nm (' ' :: t) hw]
  simp [isWordChar]

theorem dropWhile_name_space (nm t : List Char)
    (hw : ∀ c ∈ nm, isWordChar c = true) :
    (nm ++ (' ' :: t)).dropWhile isWordChar = ' ' :: t := by
  rw [dropWhile_append_all nm (' ' :: t) hw]
  simp [isWordChar]

theorem takeWhile_path_quote (pc : List Char)
    (hq : ∀ c ∈ pc, isQuoteChar c = false) :
    (pc ++ ['\'']).takeWhile (fun c => !(isQuoteChar c)) = pc := by
  rw [takeWhile_append_all pc ['\''] (fun c hc => by simp [hq c hc])]
  simp [isQuoteChar]

theorem dropWhile_path_quote (pc : List Char)
    (hq : ∀ c ∈ pc, isQuoteChar c = false) :
    (pc ++ ['\'']).dropWhile (fun c => !(isQuoteChar c)) = ['\''] := by
  rw [dropWhile_append_all pc ['\''] (fun c hc => by simp [hq c hc])]
  simp [isQuoteChar]

/-- Evaluation of the embedded regex on a canonical single-quoted
statement importing NAME from a quoted PATH. -/
theorem lineMatches_canonical (n0 : Char) (ntail pathChars : List Char)
    (hw : ∀ c ∈ n0 :: ntail, isWordChar c = true)
    (hq : ∀ c ∈ pathChars, isQuoteChar c = false) :
    lineMatchesImport
        ⟨'i' :: 'm' :: 'p' :: 'o' :: 'r' :: 't' :: ' ' ::
          ((n0 :: ntail) ++
            (' ' :: 'f' :: 'r' :: 'o' :: 'm' :: ' ' :: '\'' ::
              (pathChars ++ ['\''])))⟩
      = if matchPartialPath pathChars then
          some (⟨n0 :: ntail⟩, ⟨pathChars⟩)
        else none := by
  have hn0w : isWordChar n0 = true := hw n0 (List.mem_cons_self ..)
  have hn0s : isSpaceChar n0 = false := word_not_space hn0w
  have hn0b : ¬ n0 = '{' := word_not_brace hn0w
  simp only [lineMatchesImport]
  rw [show ('i' :: 'm' :: 'p' :: 'o' :: 'r' :: 't' :: ' ' ::
      ((n0 :: ntail) ++
        (' ' :: 'f' :: 'r' :: 'o' :: 'm' :: ' ' :: '\'' ::
          (pathChars ++ ['\''])))).dropWhile isSpaceChar
      = 'i' :: 'm' :: 'p' :: 'o' :: 'r' :: 't' :: ' ' ::
        ((n0 :: ntail) ++
          (' ' :: 'f' :: 'r' :: 'o' :: 'm' :: ' ' :: '\'' ::
            (pathChars ++ ['\'']))) by simp [isSpaceChar]]
  rw [if_pos (by simp [List.isPrefixOf])]
  rw [show ('i' :: 'm' :: 'p' :: 'o' :: 'r' :: 't' :: ' ' ::
      ((n0 :: ntail) ++
        (' ' :: 'f' :: 'r' :: 'o' :: 'm' :: ' ' :: '\'' ::
          (pathChars ++ ['\''])))).drop 6
      = ' ' :: ((n0 :: ntail) ++
          (' ' :: 'f' :: 'r' :: 'o' :: 'm' :: ' ' :: '\'' ::
            (pathChars ++ ['\'']))) from rfl]
  rw [if_neg (by
    simp only [List.takeWhile_cons]
    simp [isSpaceChar])]
  rw [show (' ' :: ((n0 :: ntail) ++
      (' ' :: 'f' :: 'r' :: 'o' :: 'm' :: ' ' :: '\'' ::
        (pathChars ++ ['\''])))).dropWhile isSpaceChar
      = (n0 :: ntail) ++
          (' ' :: 'f' :: 'r' :: 'o' :: 'm' :: ' ' :: '\'' ::
            (pathChars ++ ['\''])) by
    rw [List.dropWhile_cons]
    simp only [show isSpaceChar ' ' = true by decide, if_pos]
    rw [List.cons_append, List.dropWhile_cons]
    simp [hn0s]]
  rw [show parseIdentPart ((n0 :: ntail) ++
      (' ' :: 'f' :: 'r' :: 'o' :: 'm' :: ' ' :: '\'' ::
        (pathChars ++ ['\''])))
      = some (n0 :: ntail,
          ' ' :: 'f' :: 'r' :: 'o' :: 'm' :: ' ' :: '\'' ::
            (pathChars ++ ['\''])) by
    rw [List.cons_append, parseIdentPart]
    rw [if_neg hn0b]
    rw [← List.cons_append,
      takeWhile_name_space (n0 :: ntail) _ hw,
      dropWhile_name_space (n0 :: ntail) _ hw]
    simp]
  dsimp only
  rw [if_neg (by
    simp only [List.takeWhile_cons]
    simp [isSpaceChar])]
  rw [show (' ' :: 'f' :: 'r' :: 'o' :: 'm' :: ' ' :: '\'' ::
      (pathChars ++ ['\''])).dropWhile isSpaceChar
      = 'f' :: 'r' :: 'o' :: 'm' :: ' ' :: '\'' :: (pathChars ++ ['\'']) by
    simp [isSpaceChar]]
  rw [if_pos (by simp [List.isPrefixOf])]
  rw [show ('f' :: 'r' :: 'o' :: 'm' :: ' ' :: '\'' ::
      (pathChars ++ ['\''])).drop 4 = ' ' :: '\'' :: (pathChars ++ ['\''])
    from rfl]
  rw [if_neg (by
    simp only [List.takeWhile_cons]
    simp [isSpaceChar])]
  rw [show (' ' :: '\'' :: (pathChars ++ ['\''])).dropWhile isSpaceChar
      = '\'' :: (pathChars ++ ['\'']) by simp [isSpaceChar]]
  dsimp only
  rw [if_pos (by decide : isQuoteChar '\'' = true)]
  rw [takeWhile_path_quote pathChars hq, dropWhile_path_quote pathChars hq]
  dsimp only
  by_cases hmp : matchPartialPath pathChars = true
  · rw [if_pos hmp]
    rw [if_pos (by simp [hmp, (by decide : isQuoteChar '\'' = true)])]
    rw [if_pos (by simp)]
  · rw [if_neg hmp]
    rw [if_neg (by simp [hmp])]

/-- Claim C5 (amended): a statement importing NAME from a quoted PATH is
treated as a partial import exactly when PATH ends in `.md` or `.mdx` and
contains an underscore strictly inside the pre-extension stem (at least
one character before the underscore and at least one between it and the
extension); a bare underscore-prefixed name such as `_partial.mdx` is NOT
detected, while a mid-segment underscore such as `./foo_bar.mdx` IS. -/
theorem C5_amended (name path : String)
    (hn : name.data ≠ [])
    (hw : ∀ c ∈ name.data, isWordChar c = true)
    (hq : ∀ c ∈ path.data, isQuoteChar c = false) :
    detectPartialImport ("import " ++ name ++ " from '" ++ path ++ "'")
      = if partialPathFormChars path.data then some (name, path) else none := by
  obtain ⟨n0, ntail, hname⟩ := List.exists_cons_of_ne_nil hn
  have hstr : ("import " ++ name ++ " from '" ++ path ++ "'")
      = ⟨'i' :: 'm' :: 'p' :: 'o' :: 'r' :: 't' :: ' ' ::
          ((n0 :: ntail) ++
            (' ' :: 'f' :: 'r' :: 'o' :: 'm' :: ' ' :: '\'' ::
              (path.data ++ ['\''])))⟩ := by
    apply String.ext
    simp [String.data_append, hname]
  have hwn : ∀ c ∈ n0 :: ntail, isWordChar c = true := by
    rw [← hname]; exact hw
  have hline := lineMatches_canonical n0 ntail path.data hwn hq
  rw [detectPartialImport, hstr, hline]
  by_cases hmp : matchPartialPath path.data = true
  · rw [if_pos hmp]
    have hmem : '_' ∈ path.data := by
      obtain ⟨a, x, y, hr, _⟩ := (matchPartialPath_iff path.data).mp hmp
      rw [hr]
      exact List.mem_cons_of_mem a (List.mem_append_right x (List.mem_cons_self ..))
    rw [← matchPartialPath_eq_form, if_pos hmp]
    show (if (String.mk path.data).data.contains '_' = true then
        some (String.mk (n0 :: ntail), String.mk path.data) else none)
      = some (name, path)
    rw [if_pos (by rw [contains_eq_decide_mem, decide_eq_true_eq]; exact hmem)]
    rw [show (String.mk (n0 :: ntail)) = name by rw [← hname]]
  · rw [if_neg hmp, ← matchPartialPath_eq_form, if_neg hmp]

/-- Witness for C5 (amended) at the concrete import statement
`import Foo from './foo_bar.mdx'`. -/
theorem C5_witness :
    detectPartialImport "import Foo from './foo_bar.mdx'"
      = (if partialPathFormChars "./foo_bar.mdx".data then
          some ("Foo", "./foo_bar.mdx")
        else none) ∧
    partialPathFormChars "./foo_bar.mdx".data = true :=
  ⟨C5_amended "Foo" "./foo_bar.mdx" (by decide) (by decide) (by decide),
    by decide⟩

/-- Claim C5 as stated is false on the code: the import target
`./foo_bar.mdx` has an underscore only in the middle of a segment (no
underscore-prefixed segment) yet IS detected as a partial import, and the
bare underscore-prefixed target `_partial.mdx` is NOT detected (the regex
requires at least one character before the underscore). -/
theorem C5_counterexample :
    detectPartialImport "import Foo from './foo_bar.mdx'"
      = some ("Foo", "./foo_bar.mdx") ∧
    hasUnderscoreSegment "./foo_bar.mdx" = false ∧
    detectPartialImport "import P from '_partial.mdx'" = none ∧
    hasUnderscoreSegment "_partial.mdx" = true := by
  refine ⟨by decide, by decide, by decide, by decide⟩

/-!  URL path transformation: `applyPathTransformations`
(src/src/utils.ts, lines 252–293).  The per-segment removal regex
`(^|/)(SEGMENT)(/|$)` with replacement `$1$3` is embedded as an explicit
left-to-right scan over the characters, mirroring a single global
(non-overlapping) JavaScript regex replace. -/

/-- Path transformation options (src/src/types.ts,
`PluginOptions.pathTransformation`). -/
structure PathTransformation where
  ignorePaths : List String := []
  addPaths : List String := []
deriving DecidableEq

/-- Characters that are metacharacters of JavaScript regular-expression
syntax.  The source interpolates the configured ignore segment into the
pattern text without escaping it (unlike `resolvePartialImports`, which
escapes), so the literal-match embedding below is faithful exactly for
segments free of these characters; a segment containing one (for example
`a*`) acts as an arbitrary regular expression in the real code and lies
outside this model. -/
def isRegexMeta (c : Char) : Bool :=
  (['\\', '^', '$', '.', '|', '?', '*', '+', '(', ')', '[', ']',
    '\x7b', '\x7d'] : List Char).contains c

/-- Literal match of the ignored segment followed by the third group
`(/|$)`: returns the characters contributed by `$3` and the remainder of
the input after the whole match.  Matching the second capture group
literally is valid for ignore segments free of regex metacharacters
(see `isRegexMeta`). -/
def matchTail (x : List Char) (s : List Char) : Option (List Char × List Char) :=
  match x, s with
  | [], [] => some ([], [])
  | [], c :: rest => if c = '/' then some (['/'], rest) else none
  | _ :: _, [] => none
  | c :: xs, d :: ss => if d = c then matchTail xs ss else none

/-- Attempt of the regex `(^|/)(x)(/|$)` at the current position:
the `^` alternative applies only at the very start of the string, the `/`
alternative consumes a leading slash.  Returns the replacement `$1$3` for
the match and the remainder after it. -/
def tryMatchAt (x : List Char) (atStart : Bool) (s : List Char) :
    Option (List Char × List Char) :=
  match (if atStart then matchTail x s else none) with
  | some (g3, rest) => some (g3, rest)
  | none =>
    match s with
    | [] => none
    | c :: s2 =>
      if c = '/' then
        match matchTail x s2 with
        | some (g3, rest) => some ('/' :: g3, rest)
        | none => none
      else none

theorem matchTail_length (x : List Char) :
    ∀ (s g3 rest : List Char), matchTail x s = some (g3, rest) →
      rest.length + g3.length + x.length = s.length := by
  induction x with
  | nil =>
    intro s g3 rest h
    match s with
    | [] =>
      rw [show matchTail [] [] = some ([], []) from rfl] at h
      simp only [Option.some.injEq, Prod.mk.injEq] at h
      simp [← h.1, ← h.2]
    | c :: r =>
      rw [show matchTail [] (c :: r)
          = (if c = '/' then some (['/'], r) else none) from rfl] at h
      by_cases hc : c = '/'
      · rw [if_pos hc] at h
        simp only [Option.some.injEq, Prod.mk.injEq] at h
        simp [← h.1, ← h.2]
      · rw [if_neg hc] at h
        exact absurd h (by simp)
  | cons c xs ih =>
    intro s g3 rest h
    match s with
    | [] =>
      rw [show matchTail (c :: xs) [] = none from rfl] at h
      exact absurd h (by simp)
    | d :: ss =>
      rw [show matchTail (c :: xs) (d :: ss)
          = (if d = c then matchTail xs ss else none) from rfl] at h
      by_cases hd : d = c
      · rw [if_pos hd] at h
        have := ih ss g3 rest h
        simp only [List.length_cons]
        omega
      · rw [if_neg hd] at h
        exact absurd h (by simp)

theorem matchTail_lt {x s g3 rest : List Char} (hs : s ≠ [])
    (h : matchTail x s = some (g3, rest)) : rest.length < s.length := by
  have hlen := matchTail_length x s g3 rest h
  rcases Nat.eq_zero_or_pos (g3.length + x.length) with hz | hp
  · -- both the third group and the segment are empty: only possible for s = []
    have hg3 : g3 = [] := by
      have : g3.length = 0 := by omega
      exact List.length_eq_zero.mp this
    have hx : x = [] := by
      have : x.length = 0 := by omega
      exact List.length_eq_zero.mp this
    subst hg3; subst hx
    match s with
    | [] => exact absurd rfl hs
    | c :: r =>
      rw [show matchTail [] (c :: r)
          = (if c = '/' then some (['/'], r) else none) from rfl] at h
      by_cases hc : c = '/'
      · rw [if_pos hc] at h
        simp at h
      · rw [if_neg hc] at h
        exact absurd h (by simp)
  · omega

theorem tryMatchAt_length {x : List Char} {b : Bool} {s rep rest : List Char}
    (hs : s ≠ []) (h : tryMatchAt x b s = some (rep, rest)) :
    rest.length < s.length := by
  rw [tryMatchAt.eq_def] at h
  split at h
  · rename_i g3 r2 hnear
    simp only [Option.some.injEq, Prod.mk.injEq] at h
    have hmt : matchTail x s = some (g3, r2) := by
      rcases Bool.dichotomy b with hb | hb <;> rw [hb] at hnear
      · exact absurd hnear (by simp)
      · simpa using hnear
    rw [← h.2]
    exact matchTail_lt hs hmt
  · split at h
    · exact absurd h (by simp)
    · rename_i c s2 hnone
      by_cases hc : c = '/'
      · rw [if_pos hc] at h
        split at h
        · rename_i g3 r2 hm2
          simp only [Option.some.injEq, Prod.mk.injEq] at h
          have h2 := matchTail_length x s2 g3 r2 hm2
          rw [← h.2]
          simp only [List.length_cons]
          omega
        · exact absurd h (by simp)
      · rw [if_neg hc] at h
        exact absurd h (by simp)

/-- One global pass of `transformedPath.replace(ignoreRegex, '$1$3')`:
scan left to right, replacing each non-overlapping match; scanning
resumes immediately after a match (never again in `^` mode).  The `fuel`
argument makes the recursion structural; every step consumes at least one
character, so `s.length + 1` steps always complete the scan. -/
def replacePassAux (x : List Char) : Nat → List Char → Bool → List Char
  | 0, s, _ => s
  | fuel + 1, s, atStart =>
    match s with
    | [] => []
    | c :: cs =>
      match tryMatchAt x atStart (c :: cs) with
      | some (rep, rest) => rep ++ replacePassAux x fuel rest false
      | none => c :: replacePassAux x fuel cs false

/-- One global replace pass over a whole string (scan starts in `^` mode). -/
def replacePass (x : List Char) (s : List Char) : List Char :=
  replacePassAux x (s.length + 1) s true

/-- `transformedPath.replace(/\/+/g, '/')`: collapse slash runs;
`prevSlash` records whether the previously emitted character was a slash. -/
def collapseSlashes : List Char → Bool → List Char
  | [], _ => []
  | c :: rest, prevSlash =>
    if c = '/' then
      if prevSlash then collapseSlashes rest true
      else '/' :: collapseSlashes rest true
    else c :: collapseSlashes rest false

/-- `transformedPath.replace(/^\//, '')`: drop one leading slash. -/
def stripLeadingSlash (p : String) : String :=
  match p.data with
  | '/' :: rest => ⟨rest⟩
  | _ => p

/-- The `addPaths` phase: iterate the configured segments in reverse order
(the source reverses so that the first configured entry ends up leftmost),
prepending each unless the path already starts with it. -/
def applyAddPaths (addPaths : List String) (transformedPath : String) : String :=
  (addPaths.reverse).foldl
    (fun tp addPath =>
      if !(strStartsWith tp (addPath ++ "/")) && !(tp = addPath) then
        addPath ++ "/" ++ tp
      else tp)
    transformedPath

/-- Embedding of `applyPathTransformations` (src/src/utils.ts,
lines 252–293): with no configuration the path is returned unchanged;
otherwise each ignored segment is removed by one global regex pass,
doubled slashes are collapsed, one leading slash is stripped, and the
`addPaths` are prepended. -/
def applyPathTransformations (urlPath : String)
    (pathTransformation : Option PathTransformation) : String :=
  match pathTransformation with
  | none => urlPath
  | some pt =>
    let transformedPath :=
      if pt.ignorePaths.length > 0 then
        let afterIgnores := pt.ignorePaths.foldl
          (fun tp ignorePath => (⟨replacePass ignorePath.data tp.data⟩ : String))
          urlPath
        stripLeadingSlash ⟨collapseSlashes afterIgnores.data false⟩
      else urlPath
    if pt.addPaths.length > 0 then applyAddPaths pt.addPaths transformedPath
    else transformedPath

/-!  Document loading: the pure core of `processMarkdownFile`
(src/src/processor.ts, lines 26–169) and its helpers from
src/src/utils.ts (`extractTitle`, `cleanMarkdownContent`).  File reading,
gray-matter parsing and partial resolution are factored out: the caller
passes the parsed frontmatter, the frontmatter-free body, and the
partial-resolution result (a function standing for
`resolvePartialImports`). -/

/-- JavaScript `String.prototype.trim` on the character list. -/
def trimChars (l : List Char) : List Char :=
  ((l.dropWhile isSpaceChar).reverse.dropWhile isSpaceChar).reverse

/-- `content.split('\n\n')`: split on the two-character separator,
non-overlapping, left to right. -/
def splitOnNN : List Char → List (List Char)
  | [] => [[]]
  | '\n' :: '\n' :: rest => [] :: splitOnNN rest
  | c :: rest =>
    match splitOnNN rest with
    | [] => [[c]]
    | w :: ws => (c :: w) :: ws

/-- The second-priority description search (src/src/processor.ts, lines
104–113): the first paragraph whose trimmed text is non-empty and does
not start with `#`, already trimmed. -/
def firstNonHeadingParagraph : List (List Char) → Option (List Char)
  | [] => none
  | para :: rest =>
    let trimmedPara := trimChars para
    if !trimmedPara.isEmpty &&
        !(match trimmedPara with | '#' :: _ => true | _ => false) then
      some trimmedPara
    else firstNonHeadingParagraph rest

/-- First match of `/^#\s+(.*)/m` (also `/^#\s+(.*?)$/m`, which captures
the same span): at some line start, a single `#`, at least one whitespace
character (which, as in JavaScript, may run across newlines), then the
rest of that line as the untrimmed capture group.  `fuel` bounds the
line-to-line scan; `l.length + 1` steps always suffice. -/
def firstHeadingMatchAux : Nat → List Char → Option (List Char)
  | 0, _ => none
  | fuel + 1, l =>
    match l with
    | '#' :: rest =>
      if (match rest with | c :: _ => isSpaceChar c | [] => false) then
        some ((rest.dropWhile isSpaceChar).takeWhile (fun c => !(c = '\n')))
      else
        match l.dropWhile (fun c => !(c = '\n')) with
        | [] => none
        | _ :: t => firstHeadingMatchAux fuel t
    | [] => none
    | _ =>
      match l.dropWhile (fun c => !(c = '\n')) with
      | [] => none
      | _ :: t => firstHeadingMatchAux fuel t

/-- First match of the single-`#` heading regex over a whole body. -/
def firstHeadingMatch (l : List Char) : Option (List Char) :=
  firstHeadingMatchAux (l.length + 1) l

/-- `description.replace(/^(#+)\s+/gm, '')`: remove runs of `#` followed
by whitespace at every line start (non-overlapping, left to right; the
whitespace may swallow newlines, in which case scanning resumes in
line-start mode exactly when the last swallowed character was a newline).
`atStart` is true at line starts; `fuel` bounds the scan
(`l.length + 1` suffices: every step consumes at least one character). -/
def stripMarkersAux : Nat → Bool → List Char → List Char
  | 0, _, l => l
  | fuel + 1, atStart, l =>
    match l with
    | [] => []
    | c :: rest =>
      let hashes := (c :: rest).takeWhile (fun x => x = '#')
      let after := (c :: rest).dropWhile (fun x => x = '#')
      let wsOk := match after with | d :: _ => isSpaceChar d | [] => false
      if atStart && !hashes.isEmpty && wsOk then
        let ws := after.takeWhile isSpaceChar
        let rest2 := after.dropWhile isSpaceChar
        stripMarkersAux fuel (ws.getLastD ' ' = '\n') rest2
      else
        c :: stripMarkersAux fuel (c = '\n') rest

/-- Global multiline heading-marker strip over a description. -/
def stripHeadingMarkersGM (l : List Char) : List Char :=
  stripMarkersAux (l.length + 1) true l

/-- `description.replace(/^#+\s+/, '')`: one anchored strip at the very
start only. -/
def stripLeadingMarker (l : List Char) : List Char :=
  let hashes := l.takeWhile (fun x => x = '#')
  let after := l.dropWhile (fun x => x = '#')
  if !hashes.isEmpty &&
      (match after with | d :: _ => isSpaceChar d | [] => false) then
    after.dropWhile isSpaceChar
  else l

/-- The description search when the frontmatter provides none
(src/src/processor.ts, lines 103–122): first non-heading paragraph, then
the first heading's (non-empty) capture, trimmed, else empty. -/
def descriptionSearch (resolvedContent : List Char) : List Char :=
  match firstNonHeadingParagraph (splitOnNN resolvedContent) with
  | some p => p
  | none =>
    match firstHeadingMatch resolvedContent with
    | some h => if h.isEmpty then [] else trimChars h
    | none => []

/-- The description derivation of `processMarkdownFile`
(src/src/processor.ts, lines 97–156): frontmatter description when
truthy, else the body search; then heading markers are stripped at line
starts, with one extra anchored strip when the frontmatter description
itself starts with `#`.  (The console warnings of the source are side
effects and are not modelled.) -/
def extractDescription (data : FrontMatter) (resolvedContent : List Char) :
    List Char :=
  let description :=
    match data.description with
    | some v => if v.truthy then v.asString.data else descriptionSearch resolvedContent
    | none => descriptionSearch resolvedContent
  if description.isEmpty then description
  else
    let d1 := stripHeadingMarkersGM description
    match data.description with
    | some v =>
      if v.truthy && (match v.asString.data with | '#' :: _ => true | _ => false) then
        stripLeadingMarker d1
      else d1
    | none => d1

/-- Node `path.extname` removal from a basename: cut from the last dot,
unless that dot is the leading character. -/
def stripExtension (base : List Char) : List Char :=
  match base with
  | [] => []
  | b0 :: rest =>
    let rev := rest.reverse
    if rev.contains '.' then
      b0 :: ((rev.dropWhile (fun c => !(c = '.'))).drop 1).reverse
    else b0 :: rest

/-- `replace(/\b\w/g, c => c.toUpperCase())`: upper-case every word
character that starts a word; `prevWord` records whether the previous
character was a word character. -/
def capitalizeWordStarts : List Char → Bool → List Char
  | [], _ => []
  | c :: rest, prevWord =>
    (if isWordChar c && !prevWord then c.toUpper else c) ::
      capitalizeWordStarts rest (isWordChar c)

/-- The filename fallback of `extractTitle` (src/src/utils.ts, lines
99–102): basename without extension, dashes to spaces, word starts
capitalized. -/
def filenameTitle (filePath : String) : String :=
  let base := stripExtension (basenameChars filePath)
  let spaced := base.map (fun c => if c = '-' then ' ' else c)
  ⟨capitalizeWordStarts spaced false⟩

/-- Embedding of `extractTitle` (src/src/utils.ts, lines 87–103):
frontmatter title when truthy, else the first `/^#\s+(.*)/m` capture
trimmed, else the filename-derived title. -/
def extractTitle (data : FrontMatter) (content : String) (filePath : String) :
    String :=
  let fallback :=
    match firstHeadingMatch content.data with
    | some h => (⟨trimChars h⟩ : String)
    | none => filenameTitle filePath
  match data.title with
  | some v => if v.truthy then v.asString else fallback
  | none => fallback

/-- A line matched by the import-stripping regex
`/^\s*import\s+.*?;?\s*$/gm`, modelled line-wise: optional whitespace,
`import`, at least one whitespace character, anything to the line end.
(In JavaScript the trailing `\s*$` may additionally absorb a following
blank line; no claim exercises that corner.) -/
def isImportLine (line : List Char) : Bool :=
  let afterWs := line.dropWhile isSpaceChar
  "import".data.isPrefixOf afterWs &&
    (match afterWs.drop 6 with | c :: _ => isSpaceChar c | [] => false)

/-- The HTML tag names removed by `cleanMarkdownContent`
(src/src/utils.ts, line 189), in the alternation order of the regex. -/
def htmlTagNames : List (List Char) :=
  ["div", "span", "p", "br", "hr", "img", "a", "strong", "em", "b", "i",
   "u", "h1", "h2", "h3", "h4", "h5", "h6", "ul", "ol", "li", "table",
   "tr", "td", "th", "thead", "tbody"].map String.data

/-- Case-insensitive literal match of a tag name; returns the remainder. -/
def matchTagName : List Char → List Char → Option (List Char)
  | [], s => some s
  | _ :: _, [] => none
  | t :: ts, c :: cs => if c.toLower = t then matchTagName ts cs else none

/-- Try the tag-name alternation followed by `\b[^>]*>`; returns the
remainder after the closing `>` on success. -/
def tryTagAlternatives (s : List Char) : List (List Char) → Option (List Char)
  | [] => none
  | tag :: more =>
    match matchTagName tag s with
    | some rest =>
      -- the word boundary: the character after the name must not be a word
      -- character (tag names end in word characters)
      if (match rest with | c :: _ => !(isWordChar c) | [] => true) then
        match rest.dropWhile (fun c => !(c = '>')) with
        | '>' :: r => some r
        | _ => tryTagAlternatives s more
      else tryTagAlternatives s more
    | none => tryTagAlternatives s more

/-- The HTML-tag removal pass
`/<\/?(?:div|…|tbody)\b[^>]*>/gi` as a left-to-right scan; `fuel`
bounds the scan (`l.length + 1` suffices). -/
def stripHtmlTagsAux : Nat → List Char → List Char
  | 0, l => l
  | fuel + 1, l =>
    match l with
    | [] => []
    | '<' :: rest =>
      let body := match rest with | '/' :: r => r | r => r
      match tryTagAlternatives body htmlTagNames with
      | some r => stripHtmlTagsAux fuel r
      | none => '<' :: stripHtmlTagsAux fuel rest
    | c :: rest => c :: stripHtmlTagsAux fuel rest

/-- HTML-tag removal over a whole body. -/
def stripHtmlTags (l : List Char) : List Char :=
  stripHtmlTagsAux (l.length + 1) l

/-- The per-line heading parse `/^\s*(#+)\s+(.+)$/` of the
duplicate-heading pass: returns the trimmed heading text. -/
def headingOf (line : List Char) : Option (List Char) :=
  let afterWs := line.dropWhile isSpaceChar
  let hashes := afterWs.takeWhile (fun c => c = '#')
  let after1 := afterWs.dropWhile (fun c => c = '#')
  if !hashes.isEmpty &&
      (match after1 with | c :: _ :: _ => isSpaceChar c | _ => false) then
    some (trimChars (after1.dropWhile isSpaceChar))
  else none

/-- The test `/^\s*#+\s+/.test(nextLine)` of the duplicate-heading pass. -/
def testHeadingStart (l : List Char) : Bool :=
  let afterWs := l.dropWhile isSpaceChar
  let hashes := afterWs.takeWhile (fun c => c = '#')
  let after1 := afterWs.dropWhile (fun c => c = '#')
  !hashes.isEmpty &&
    (match after1 with | c :: _ => isSpaceChar c | [] => false)

/-- The duplicate-heading elision loop of `cleanMarkdownContent`
(src/src/utils.ts, lines 192–236) over the line list: after a heading
line, blank lines are kept, and the next non-blank line is dropped when
its trimmed text equals the heading text and it is not itself a heading.
`fuel` bounds the loop (`lines.length + 1` suffices: every step consumes
at least one line). -/
def dedupHeadingsAux : Nat → List (List Char) → List (List Char)
  | 0, lines => lines
  | fuel + 1, lines =>
    match lines with
    | [] => []
    | currentLine :: rest =>
      match headingOf currentLine with
      | some headingText =>
        let blanks := rest.takeWhile (fun l => (trimChars l).isEmpty)
        let after := rest.dropWhile (fun l => (trimChars l).isEmpty)
        currentLine :: (blanks ++
          (match after with
           | [] => []
           | nextLine :: after2 =>
             let nextTrimmed := trimChars nextLine
             if nextTrimmed = headingText && !(testHeadingStart nextTrimmed) then
               dedupHeadingsAux fuel after2
             else dedupHeadingsAux fuel after))
      | none => currentLine :: dedupHeadingsAux fuel rest

/-- `\r\n` to `\n`. -/
def replaceCRLF : List Char → List Char
  | [] => []
  | '\r' :: '\n' :: rest => '\n' :: replaceCRLF rest
  | c :: rest => c :: replaceCRLF rest

/-- `\n{3,}` to `\n\n`: `n` counts the newlines already emitted in the
current run (capped at 2). -/
def collapseNL : List Char → Nat → List Char
  | [], _ => []
  | '\n' :: rest, n =>
    if n < 2 then '\n' :: collapseNL rest (n + 1) else collapseNL rest n
  | c :: rest, _ => c :: collapseNL rest 0

/-- Lines joined back with `\n` (JavaScript `Array.prototype.join`). -/
def joinLines (lines : List (List Char)) : List Char :=
  (List.intersperse ['\n'] lines).flatten

/-- Embedding of `cleanMarkdownContent` (src/src/utils.ts, lines
171–244): optional import-line removal, HTML-tag removal, optional
duplicate-heading elision, then whitespace normalization (CRLF to LF,
three-plus newlines collapsed to two, ends trimmed). -/
def cleanMarkdownContent (content : String) (excludeImports : Bool)
    (removeDuplicateHeadings : Bool) : String :=
  let cleaned := content.data
  let cleaned :=
    if excludeImports then
      joinLines ((splitChar '\n' cleaned).map
        (fun line => if isImportLine line then [] else line))
    else cleaned
  let cleaned := stripHtmlTags cleaned
  let cleaned :=
    if removeDuplicateHeadings then
      joinLines (dedupHeadingsAux ((splitChar '\n' cleaned).length + 1)
        (splitChar '\n' cleaned))
    else cleaned
  ⟨trimChars (collapseNL (replaceCRLF cleaned) 0)⟩

/-- Model of WHATWG `new URL(relative, base).toString()` for the shapes
this pipeline produces: an absolute base URL and a path-only relative,
which is appended to the base (URL normalization such as dot-segment
removal is not exercised by the claims). -/
def urlJoin (base relative : String) : String :=
  if strStartsWith relative "/" then base ++ relative
  else base ++ "/" ++ relative

/-- `normalizedPath.replace(/\.mdx?$/, '')`: strip one trailing
Markdown/MDX extension. -/
def stripMdExt (p : String) : String :=
  if strEndsWith p ".mdx" then ⟨p.data.take (p.data.length - 4)⟩
  else if strEndsWith p ".md" then ⟨p.data.take (p.data.length - 3)⟩
  else p

/-- The pure core of `processMarkdownFile` (src/src/processor.ts, lines
26–169).  `data` and `markdownContent` are the gray-matter parse of the
file's text, and `resolver` stands for the asynchronous
`resolvePartialImports(markdownContent, filePath)`.  Returns `none`
exactly on the strict-boolean draft check; otherwise the Document. -/
def processMarkdownFilePure (filePath baseDir siteUrl : String)
    (pathPrefix : String) (pathTransformation : Option PathTransformation)
    (excludeImports : Bool) (removeDuplicateHeadings : Bool)
    (resolvedUrl : Option String) (data : FrontMatter)
    (markdownContent : String) (resolver : String → String) :
    Option DocInfo :=
  -- Skip draft files (`data.draft === true`, strict boolean)
  if data.draft = some (FMValue.bool true) then none
  else
    let resolvedContent := resolver markdownContent
    let relativePath := relativeModel baseDir filePath
    let normalizedPath : String :=
      ⟨relativePath.data.map (fun c => if c = '\\' then '/' else c)⟩
    let fullUrl :=
      match resolvedUrl with
      | some ru => urlJoin siteUrl ru
      | none =>
        let linkPathBase := stripMdExt normalizedPath
        let linkPath :=
          if strEndsWith linkPathBase "index" then
            (if strEndsWith linkPathBase "/index" then
              (⟨linkPathBase.data.take (linkPathBase.data.length - 6)⟩ : String)
            else linkPathBase)
          else linkPathBase
        let linkPath2 :=
          if !(pathPrefix = "") && strStartsWith linkPath (pathPrefix ++ "/") then
            (⟨linkPath.data.drop (pathPrefix.data.length + 1)⟩ : String)
          else if !(pathPrefix = "") && linkPath = pathPrefix then ""
          else linkPath
        let transformedLinkPath := applyPathTransformations linkPath2 pathTransformation
        let transformedPathPrefix :=
          if !(pathPrefix = "") &&
              (match pathTransformation with
               | some pt => pt.ignorePaths.contains pathPrefix
               | none => false) then ""
          else pathPrefix
        urlJoin siteUrl
          ((if !(transformedPathPrefix = "") then transformedPathPrefix ++ "/" else "")
            ++ transformedLinkPath)
    let title := extractTitle data resolvedContent filePath
    let description := extractDescription data resolvedContent.data
    let cleanedContent :=
      cleanMarkdownContent resolvedContent excludeImports removeDuplicateHeadings
    some
      { title := title
        path := normalizedPath
        url := fullUrl
        content := cleanedContent
        description := ⟨description⟩
        frontMatter := some data }

/-- Claim C3: loading a source file produces no Document exactly when the
frontmatter `draft` field is the strict boolean true; in particular a
string "true" draft value does not exclude, and the Document is
produced. -/
theorem C3_theorem :
    (∀ (filePath baseDir siteUrl pathPrefix : String)
        (pt : Option PathTransformation) (ei rdh : Bool) (ru : Option String)
        (data : FrontMatter) (mc : String) (resolver : String → String),
        processMarkdownFilePure filePath baseDir siteUrl pathPrefix pt ei rdh
            ru data mc resolver = none
          ↔ data.draft = some (FMValue.bool true)) ∧
    (processMarkdownFilePure "docs/a.md" "" "https://example.com" "docs"
        none false false none
        { title := some (FMValue.str "T"), draft := some (FMValue.str "true") }
        "body text" (fun s => s)).isSome = true := by
  constructor
  · intro filePath baseDir siteUrl pathPrefix pt ei rdh ru data mc resolver
    rw [processMarkdownFilePure.eq_def]
    by_cases hd : data.draft = some (FMValue.bool true)
    · rw [if_pos hd]
      simp [hd]
    · rw [if_neg hd]
      simp [hd]
  · decide

theorem extractDescription_truthy (data : FrontMatter) (v : FMValue)
    (h : data.description = some v) (ht : v.truthy = true)
    (c1 c2 : List Char) :
    extractDescription data c1 = extractDescription data c2 := by
  rw [extractDescription, extractDescription, h]
  simp only [ht, if_pos]

/-- Claim C8: description derivation priority — a truthy frontmatter
description makes the result independent of the body, else the first
non-heading paragraph, else the first heading's text; heading markers are
stripped only at line starts.  The spec's three concrete examples (and a
heading-fallback instance) evaluate as claimed. -/
theorem C8_theorem :
    (∀ (filePath baseDir siteUrl pathPrefix : String)
        (pt : Option PathTransformation) (ei rdh : Bool) (ru : Option String)
        (data : FrontMatter) (v : FMValue) (mc mc2 : String)
        (r r2 : String → String),
        data.description = some v → v.truthy = true →
        (processMarkdownFilePure filePath baseDir siteUrl pathPrefix pt ei rdh
            ru data mc r).map DocInfo.description =
          (processMarkdownFilePure filePath baseDir siteUrl pathPrefix pt ei
            rdh ru data mc2 r2).map DocInfo.description) ∧
    ((processMarkdownFilePure "docs/a.md" "" "https://example.com" "docs" none
        false false none
        { title := some (FMValue.str "T"),
          description := some (FMValue.str "Learn about the # symbol") }
        "body" (fun s => s)).map DocInfo.description
      = some "Learn about the # symbol") ∧
    ((processMarkdownFilePure "docs/a.md" "" "https://example.com" "docs" none
        false false none
        { title := some (FMValue.str "T"),
          description := some (FMValue.str "# Title") }
        "body" (fun s => s)).map DocInfo.description
      = some "Title") ∧
    ((processMarkdownFilePure "docs/a.md" "" "https://example.com" "docs" none
        false false none
        { title := some (FMValue.str "T") }
        "# Heading\n\nFirst real paragraph." (fun s => s)).map
          DocInfo.description
      = some "First real paragraph.") ∧
    ((processMarkdownFilePure "docs/a.md" "" "https://example.com" "docs" none
        false false none
        { title := some (FMValue.str "T") }
        "# Only Heading" (fun s => s)).map DocInfo.description
      = some "Only Heading") := by
  refine ⟨?_, by decide, by decide, by decide, by decide⟩
  intro filePath baseDir siteUrl pathPrefix pt ei rdh ru data v mc mc2 r r2 h ht
  rw [processMarkdownFilePure.eq_def, processMarkdownFilePure.eq_def]
  by_cases hd : data.draft = some (FMValue.bool true)
  · rw [if_pos hd, if_pos hd]
  · rw [if_neg hd, if_neg hd]
    show some _ = some _
    rw [Option.some.injEq]
    show String.mk (extractDescription data (r mc).data)
      = String.mk (extractDescription data (r2 mc2).data)
    exact congrArg String.mk (extractDescription_truthy data v h ht _ _)

/-- Witness for C8 at a concrete truthy frontmatter description and two
different bodies. -/
theorem C8_witness :
    (processMarkdownFilePure "docs/a.md" "" "https://example.com" "docs" none
        false false none
        { description := some (FMValue.str "fixed desc") }
        "body one" (fun s => s)).map DocInfo.description =
      (processMarkdownFilePure "docs/a.md" "" "https://example.com" "docs" none
        false false none
        { description := some (FMValue.str "fixed desc") }
        "completely different body" (fun s => s)).map DocInfo.description :=
  C8_theorem.1 "docs/a.md" "" "https://example.com" "docs" none false false
    none { description := some (FMValue.str "fixed desc") }
    (FMValue.str "fixed desc") "body one" "completely different body"
    (fun s => s) (fun s => s) rfl (by decide)

/-!  Aggregation: the full-content section construction of
`generateLLMFile` (src/src/generator.ts, lines 47–144). -/

/-- `folderName.charAt(0).toUpperCase() + folderName.slice(1)`. -/
def capitalizeFirst (s : String) : String :=
  match s.data with
  | [] => ""
  | c :: rest => ⟨c.toUpper :: rest⟩

/-- Modelled from the spec: `ensureUniqueIdentifier` is imported by
src/src/generator.ts from ./utils but its definition is not among the
given sources.  Per the spec (§4.6): start from the base name; if that is
already used (case-insensitively) in this render, try the candidates
produced by the suffix callback for counters 2, 3, …, taking the first
unused one.  The used-set stores lower-cased names.  `fuel` bounds the
search (`used.length + 2` attempts suffice whenever the candidates are
pairwise distinct). -/
def ensureUniqueIdentifierAux (used : List String)
    (suffixGen : Nat → String → String) (base : String) :
    Nat → Nat → String
  | 0, counter => base ++ " " ++ suffixGen counter base
  | fuel + 1, counter =>
    let candidate :=
      if counter = 1 then base else base ++ " " ++ suffixGen counter base
    if used.contains (strToLower candidate) then
      ensureUniqueIdentifierAux used suffixGen base fuel (counter + 1)
    else candidate

/-- Modelled from the spec: the unique header together with the updated
used-set (the chosen name is recorded lower-cased). -/
def ensureUniqueIdentifier (base : String) (used : List String)
    (suffixGen : Nat → String → String) : String × List String :=
  let result := ensureUniqueIdentifierAux used suffixGen base (used.length + 2) 1
  (result, used ++ [strToLower result])

/-- The suffix callback of `generateLLMFile` (src/src/generator.ts, lines
75–86): on the first retry (counter 2), when the document has a path with
a parent folder, a parenthesized capitalized folder name; otherwise the
parenthesized counter. -/
def headerSuffix (doc : DocInfo) (counter : Nat) (_base : String) : String :=
  if !(doc.path = "") && counter = 2 then
    let pathParts := pathSegments doc.path
    let folderName :=
      if pathParts.length > 1 then pathParts.getD (pathParts.length - 2) ""
      else ""
    if !(folderName = "") then "(" ++ capitalizeFirst folderName ++ ")"
    else "(" ++ toString counter ++ ")"
  else "(" ++ toString counter ++ ")"

/-- One full-content section of `generateLLMFile` (src/src/generator.ts,
lines 62–108): choose a unique section header, and re-emit the content
under `## header`, dropping the content's first line when that line is a
heading whose text equals the document title (both inner branches of the
source produce the same `##` header text). -/
def fullContentSection (usedHeaders : List String) (doc : DocInfo) :
    String × List String :=
  let trimmedContent : List Char := trimChars doc.content.data
  let firstLine : List Char := trimmedContent.takeWhile (fun c => !(c = '\n'))
  let firstHeadingText : Option (List Char) :=
    let hashes := firstLine.takeWhile (fun c => c = '#')
    let after := firstLine.dropWhile (fun c => c = '#')
    if !hashes.isEmpty &&
        (match after with | c :: _ :: _ => isSpaceChar c | _ => false) then
      some (trimChars (after.dropWhile isSpaceChar))
    else none
  let unique := ensureUniqueIdentifier doc.title usedHeaders (headerSuffix doc)
  let sectionText :=
    match firstHeadingText with
    | some t =>
      if t = doc.title.data then
        "## " ++ unique.1 ++ "\n\n" ++
          (⟨joinLines ((splitChar '\n' trimmedContent).drop 1)⟩ : String)
      else "## " ++ unique.1 ++ "\n\n" ++ doc.content
    | none => "## " ++ unique.1 ++ "\n\n" ++ doc.content
  (sectionText, unique.2)

/-- The full-content body sections of `generateLLMFile`, in document
order, with the used-header set threaded through the map. -/
def fullContentSections (docs : List DocInfo) : List String :=
  (docs.foldl
    (fun (acc : List String × List String) doc =>
      let step := fullContentSection acc.2 doc
      (acc.1 ++ [step.1], step.2))
    ([], [])).1

theorem contains_nil_false (a : String) : ([] : List String).contains a = false := rfl

theorem contains_singleton (a b : String) :
    ([a] : List String).contains b = decide (b = a) := by
  simp [List.contains, List.elem_eq_mem]

theorem aux_step_hit (used : List String) (g : Nat → String → String)
    (b : String) (fuel counter : Nat)
    (h : used.contains
      (strToLower (if counter = 1 then b else b ++ " " ++ g counter b)) = true) :
    ensureUniqueIdentifierAux used g b (fuel + 1) counter
      = ensureUniqueIdentifierAux used g b fuel (counter + 1) := by
  rw [ensureUniqueIdentifierAux]
  rw [if_pos h]

theorem aux_step_miss (used : List String) (g : Nat → String → String)
    (b : String) (fuel counter : Nat)
    (h : used.contains
      (strToLower (if counter = 1 then b else b ++ " " ++ g counter b)) = false) :
    ensureUniqueIdentifierAux used g b (fuel + 1) counter
      = (if counter = 1 then b else b ++ " " ++ g counter b) := by
  rw [ensureUniqueIdentifierAux]
  rw [if_neg (by rw [h]; simp)]

/-- Claim C7: full-content section headers are de-duplicated per render:
the first document keeps its title, and a second document whose title
collides case-insensitively gets the capitalized parent folder appended in
parentheses; in particular two documents titled "Configuration" at
basic/configuration.md and advanced/configuration.md render
`## Configuration` and `## Configuration (Advanced)` in input order. -/
theorem C7_theorem :
    (∀ (d1 d2 : DocInfo) (folder file : String),
        strToLower d2.title = strToLower d1.title →
        d2.path = folder ++ "/" ++ file →
        folder ≠ "" →
        folder.data.contains '/' = false →
        file.data.contains '/' = false →
        strToLower (d2.title ++ " " ++ ("(" ++ capitalizeFirst folder ++ ")"))
          ≠ strToLower d1.title →
        ∃ b1 b2, fullContentSections [d1, d2] =
          ["## " ++ d1.title ++ "\n\n" ++ b1,
           "## " ++ (d2.title ++ " " ++ ("(" ++ capitalizeFirst folder ++ ")"))
             ++ "\n\n" ++ b2]) ∧
    fullContentSections
        [DocInfo.mk "Configuration" "basic/configuration.md"
          "https://example.com/docs/basic/configuration"
          "Basic body." "basic desc" none,
         DocInfo.mk "Configuration" "advanced/configuration.md"
          "https://example.com/docs/advanced/configuration"
          "Advanced body." "advanced desc" none]
      = ["## Configuration\n\nBasic body.",
         "## Configuration (Advanced)\n\nAdvanced body."] := by
  constructor
  · intro d1 d2 folder file hcase hpath hfolder hf1 hf2 hnc
    have hpne : ¬ d2.path = "" := by
      rw [hpath]
      intro he
      have h2 : (folder ++ "/" ++ file).data = ("" : String).data := by rw [he]
      simp [String.data_append] at h2
    have hsegs : pathSegments d2.path = [folder, file] := by
      rw [hpath]
      show ((segs (folder ++ "/" ++ file).data).map (fun l => (⟨l⟩ : String)))
        = [folder, file]
      rw [show (folder ++ "/" ++ file).data = folder.data ++ '/' :: file.data by
        simp [String.data_append]]
      rw [segs_append_slash, segs_slash_free folder.data hf1,
        segs_slash_free file.data hf2]
      rfl
    have hhdr1 : ensureUniqueIdentifier d1.title [] (headerSuffix d1)
        = (d1.title, [strToLower d1.title]) := by
      rw [ensureUniqueIdentifier]
      rw [show (List.length ([] : List String) + 2) = 1 + 1 from rfl]
      rw [aux_step_miss _ _ _ 1 1 (by rw [if_pos rfl]; rfl)]
      rw [if_pos rfl]
      simp
    have hsuffix : headerSuffix d2 2 d2.title
        = "(" ++ capitalizeFirst folder ++ ")" := by
      rw [headerSuffix]
      rw [if_pos (by simp [hpne])]
      rw [hsegs]
      dsimp only
      rw [show ([folder, file] : List String).length = 2 from rfl]
      rw [if_pos (by decide : (2 : Nat) > 1)]
      rw [show ([folder, file].getD (2 - 2) "") = folder from rfl]
      rw [if_pos (show (!decide (folder = "")) = true by simp [hfolder])]
    have hhdr2 : ensureUniqueIdentifierAux [strToLower d1.title]
        (headerSuffix d2) d2.title (List.length [strToLower d1.title] + 2) 1
        = d2.title ++ " " ++ ("(" ++ capitalizeFirst folder ++ ")") := by
      rw [show (List.length [strToLower d1.title] + 2) = 2 + 1 from rfl]
      rw [aux_step_hit _ _ _ 2 1
        (by rw [if_pos rfl, hcase, contains_singleton]; simp)]
      rw [show (2 : Nat) = 1 + 1 from rfl]
      rw [aux_step_miss _ _ _ 1 (1 + 1)
        (by
          rw [if_neg (by decide : ¬ (1 + 1 = 1)), hsuffix, contains_singleton]
          exact decide_eq_false hnc)]
      rw [if_neg (by decide : ¬ (1 + 1 = 1)), hsuffix]
    have hshape : ∀ (used : List String) (doc : DocInfo), ∃ b,
        (fullContentSection used doc).1
          = "## " ++ (ensureUniqueIdentifier doc.title used (headerSuffix doc)).1
            ++ "\n\n" ++ b := by
      intro used doc
      rw [fullContentSection]
      dsimp only
      split
      · rename_i t heq
        by_cases hteq : t = doc.title.data
        · rw [if_pos hteq]
          exact ⟨_, rfl⟩
        · rw [if_neg hteq]
          exact ⟨doc.content, rfl⟩
      · exact ⟨doc.content, rfl⟩
    have hsnd : ∀ (used : List String) (doc : DocInfo),
        (fullContentSection used doc).2
          = (ensureUniqueIdentifier doc.title used (headerSuffix doc)).2 := by
      intro used doc
      rw [fullContentSection]
    obtain ⟨b1, hb1⟩ := hshape [] d1
    have hu1 : (fullContentSection [] d1).2 = [strToLower d1.title] := by
      rw [hsnd [] d1, hhdr1]
    obtain ⟨b2, hb2⟩ := hshape [strToLower d1.title] d2
    have hh1 : (ensureUniqueIdentifier d1.title [] (headerSuffix d1)).1
        = d1.title := by rw [hhdr1]
    have hh2 : (ensureUniqueIdentifier d2.title [strToLower d1.title]
        (headerSuffix d2)).1
        = d2.title ++ " " ++ ("(" ++ capitalizeFirst folder ++ ")") := by
      rw [ensureUniqueIdentifier]
      exact hhdr2
    refine ⟨b1, b2, ?_⟩
    rw [fullContentSections]
    simp only [List.foldl]
    rw [hu1, hb1, hb2, hh1, hh2]
    simp
  · decide

/-- Witness for C7 at the spec's concrete Configuration example. -/
theorem C7_witness :
    ∃ b1 b2, fullContentSections
        [DocInfo.mk "Configuration" "basic/configuration.md"
          "https://example.com/docs/basic/configuration"
          "Basic body." "basic desc" none,
         DocInfo.mk "Configuration" "advanced/configuration.md"
          "https://example.com/docs/advanced/configuration"
          "Advanced body." "advanced desc" none]
      = ["## " ++ "Configuration" ++ "\n\n" ++ b1,
         "## " ++ ("Configuration" ++ " " ++ ("(" ++ capitalizeFirst "advanced" ++ ")"))
           ++ "\n\n" ++ b2] :=
  C7_theorem.1
    (DocInfo.mk "Configuration" "basic/configuration.md"
      "https://example.com/docs/basic/configuration"
      "Basic body." "basic desc" none)
    (DocInfo.mk "Configuration" "advanced/configuration.md"
      "https://example.com/docs/advanced/configuration"
      "Advanced body." "advanced desc" none)
    "advanced" "configuration.md"
    (by decide) (by decide) (by decide) (by decide) (by decide) (by decide)

/-!  Correctness development for the ignore-segment pass of
`applyPathTransformations` (claim C2).  The scan is characterized on the
segment decomposition of the path. -/

theorem replacePassAux_irrel (x : List Char) :
    ∀ (f1 : Nat), ∀ (s : List Char) (b : Bool) (f2 : Nat),
      s.length < f1 → s.length < f2 →
      replacePassAux x f1 s b = replacePassAux x f2 s b := by
  intro f1
  induction f1 with
  | zero => intro s b f2 h1 _; omega
  | succ f1 ih =>
    intro s b f2 h1 h2
    match f2 with
    | 0 => omega
    | f2 + 1 =>
      rw [replacePassAux.eq_def]
      conv_rhs => rw [replacePassAux.eq_def]
      match s with
      | [] => rfl
      | c :: cs =>
        dsimp only
        match hm : tryMatchAt x b (c :: cs) with
        | some (rep, rest) =>
          dsimp only
          have hlt := tryMatchAt_length (by simp) hm
          rw [ih rest false f2 (by simp only [List.length_cons] at hlt h1 ⊢; omega)
            (by simp only [List.length_cons] at hlt h2 ⊢; omega)]
        | none =>
          dsimp only
          rw [ih cs false f2 (by simp only [List.length_cons] at h1 ⊢; omega)
            (by simp only [List.length_cons] at h2 ⊢; omega)]

/-- The canonical-fuel scan, unfolded one step. -/
theorem rp_unfold (x : List Char) (s : List Char) (b : Bool) :
    replacePassAux x (s.length + 1) s b =
      (match s with
       | [] => []
       | c :: cs =>
         match tryMatchAt x b (c :: cs) with
         | some (rep, rest) =>
           rep ++ replacePassAux x (rest.length + 1) rest false
         | none => c :: replacePassAux x (cs.length + 1) cs false) := by
  rw [replacePassAux.eq_def]
  match s with
  | [] => rfl
  | c :: cs =>
    dsimp only
    match hm : tryMatchAt x b (c :: cs) with
    | some (rep, rest) =>
      dsimp only
      have hlt := tryMatchAt_length (by simp) hm
      rw [replacePassAux_irrel x ((c :: cs).length) rest false (rest.length + 1)
        (by simp only [List.length_cons] at hlt ⊢; omega) (by omega)]
    | none =>
      dsimp only
      rw [replacePassAux_irrel x ((c :: cs).length) cs false (cs.length + 1)
        (by simp only [List.length_cons]; omega) (by omega)]

/-- At a position that is neither the string start nor a slash, the scan
finds no match. -/
theorem tryMatchAt_not_slash (x : List Char) {c : Char} (s : List Char)
    (hc : ¬ c = '/') : tryMatchAt x false (c :: s) = none := by
  rw [tryMatchAt.eq_def]
  simp only [Bool.false_eq_true, if_false]
  rw [if_neg hc]

/-- The scan copies a slash-free block unchanged (no match can start
inside it). -/
theorem rp_copy (x : List Char) :
    ∀ (a t : List Char), a.contains '/' = false →
      replacePassAux x ((a ++ t).length + 1) (a ++ t) false
        = a ++ replacePassAux x (t.length + 1) t false := by
  intro a
  induction a with
  | nil => intro t _; simp
  | cons c a ih =>
    intro t ha
    simp only [List.contains_cons, Bool.or_eq_false_iff] at ha
    have hc : ¬ c = '/' := by
      intro he
      rw [he] at ha
      simp at ha
    rw [List.cons_append, rp_unfold]
    dsimp only
    rw [tryMatchAt_not_slash x _ hc]
    rw [ih t ha.2]
    rfl

/-- Literal self-match: after consuming `x` the third group faces the
remainder. -/
theorem matchTail_self_append (x : List Char) :
    ∀ r, matchTail x (x ++ r) = matchTail [] r := by
  induction x with
  | nil => intro r; simp
  | cons c xs ih =>
    intro r
    rw [List.cons_append,
      show matchTail (c :: xs) (c :: (xs ++ r))
        = (if c = c then matchTail xs (xs ++ r) else none) from rfl,
      if_pos rfl]
    exact ih r

/-- No match of segment `x` against a different slash-free segment
followed by a segment boundary. -/
theorem matchTail_ne (x : List Char) :
    ∀ (s sep : List Char), s ≠ [] → ¬ s = x →
      s.contains '/' = false → x.contains '/' = false →
      (sep = [] ∨ ∃ t, sep = '/' :: t) →
      matchTail x (s ++ sep) = none := by
  induction x with
  | nil =>
    intro s sep hs hne hsf _ _
    match s with
    | c :: s2 =>
      have hc : ¬ c = '/' := by
        simp only [List.contains_cons, Bool.or_eq_false_iff] at hsf
        intro he; rw [he] at hsf; simp at hsf
      rw [List.cons_append,
        show matchTail [] (c :: (s2 ++ sep))
          = (if c = '/' then some (['/'], s2 ++ sep) else none) from rfl,
        if_neg hc]
  | cons c xs ih =>
    intro s sep hs hne hsf hxf hsep
    match s with
    | d :: s2 =>
      rw [List.cons_append,
        show matchTail (c :: xs) (d :: (s2 ++ sep))
          = (if d = c then matchTail xs (s2 ++ sep) else none) from rfl]
      by_cases hd : d = c
      · rw [if_pos hd]
        simp only [List.contains_cons, Bool.or_eq_false_iff] at hsf hxf
        match s2 with
        | [] =>
          -- x is strictly longer than s: the rest of x meets the boundary
          rw [List.nil_append]
          match xs with
          | [] =>
            exact absurd (by rw [hd] : (d :: ([] : List Char)) = c :: ([] : List Char))
              (by simpa using hne)
          | e :: xs2 =>
            rcases hsep with h0 | ⟨t, ht⟩
            · rw [h0]; rfl
            · rw [ht]
              have he : ¬ ('/' : Char) = e := by
                intro hee
                rw [← hee] at hxf
                simp at hxf
              rw [show matchTail (e :: xs2) ('/' :: t)
                  = (if '/' = e then matchTail xs2 t else none) from rfl,
                if_neg he]
        | e :: s3 =>
          exact ih (e :: s3) sep (by simp)
            (by intro hee; rw [hd, hee] at hne; simp at hne)
            (by simpa using hsf.2) (by simpa using hxf.2) hsep
      · rw [if_neg hd]

/-- The path string of a segment list (segments joined by `/`). -/
def joinSegs : List (List Char) → List Char
  | [] => []
  | [a] => a
  | a :: rest => a ++ '/' :: joinSegs rest

mutual

/-- Expected scan output from a separator slash onwards: the following
segment is removed when it equals the ignored segment `x` (leaving the
replacement slashes), otherwise it is copied; the segment after a removed
one starts mid-string and is immune. -/
def passSep (x : List Char) : List (List Char) → List Char
  | [] => []
  | r :: rs =>
    if r = x then
      match rs with
      | [] => ['/']
      | _ :: _ => '/' :: '/' :: passMid x rs
    else '/' :: (r ++ passSep x rs)

/-- Expected scan output from mid-string: the first segment is not
preceded by a slash or the string start, so it can never be matched. -/
def passMid (x : List Char) : List (List Char) → List Char
  | [] => []
  | r :: rs => r ++ passSep x rs

end

/-- Expected scan output from the string start. -/
def passStart (x : List Char) : List (List Char) → List Char
  | [] => []
  | s :: rest =>
    if s = x then
      match rest with
      | [] => []
      | _ :: _ => '/' :: passMid x rest
    else s ++ passSep x rest

/-- Well-formed segment lists: every segment is non-empty and slash-free
(the path has no leading, trailing or doubled slashes). -/
def wfSegs (l : List (List Char)) : Prop :=
  ∀ r ∈ l, r ≠ [] ∧ r.contains '/' = false

/-- No two adjacent segments both equal the ignored segment. -/
def noAdjX (x : List Char) : List (List Char) → Bool
  | a :: b :: rest => !(a = x && b = x) && noAdjX x (b :: rest)
  | _ => true

theorem noAdjX_tail {x : List Char} {a : List Char} {l : List (List Char)}
    (h : noAdjX x (a :: l) = true) : noAdjX x l = true := by
  match l with
  | [] => rfl
  | b :: rest =>
    rw [noAdjX] at h
    exact (Bool.and_elim_right h)

theorem wfSegs_tail {a : List Char} {l : List (List Char)}
    (h : wfSegs (a :: l)) : wfSegs l :=
  fun r hr => h r (List.mem_cons_of_mem a hr)

theorem joinSegs_cons (s : List Char) (rest : List (List Char))
    (h : rest ≠ []) : joinSegs (s :: rest) = s ++ '/' :: joinSegs rest := by
  match rest with
  | r :: rs => rfl

theorem matchTail_self (x : List Char) : matchTail x x = some ([], []) := by
  induction x with
  | nil => rfl
  | cons c xs ih =>
    rw [show matchTail (c :: xs) (c :: xs)
      = (if c = c then matchTail xs xs else none) from rfl, if_pos rfl]
    exact ih

/-- Match evaluation at the string start when the first segment is the
ignored one. -/
theorem tryMatchAt_start_eq (x : List Char) (rest : List (List Char)) :
    tryMatchAt x true (joinSegs (x :: rest))
      = (match rest with
         | [] => some ([], [])
         | _ :: _ => some (['/'], joinSegs rest)) := by
  match rest with
  | [] =>
    rw [show joinSegs [x] = x from rfl, tryMatchAt.eq_def]
    rw [if_pos rfl, matchTail_self]
  | r :: rs =>
    rw [joinSegs_cons x (r :: rs) (by simp), tryMatchAt.eq_def]
    rw [if_pos rfl]
    rw [matchTail_self_append]
    rfl

/-- No match at a segment start (string start or mid) when the segment
differs from the ignored one. -/
theorem tryMatchAt_seg_ne (x : List Char) (b : Bool) (s : List Char)
    (rest : List (List Char)) (hs1 : s ≠ []) (hs2 : s.contains '/' = false)
    (hne : ¬ s = x) (hx2 : x.contains '/' = false) :
    tryMatchAt x b (joinSegs (s :: rest)) = none := by
  have hshape : ∃ sep, joinSegs (s :: rest) = s ++ sep ∧
      (sep = [] ∨ ∃ t, sep = '/' :: t) := by
    match rest with
    | [] => exact ⟨[], by simp [joinSegs], Or.inl rfl⟩
    | r :: rs =>
      exact ⟨'/' :: joinSegs (r :: rs), joinSegs_cons s (r :: rs) (by simp),
        Or.inr ⟨joinSegs (r :: rs), rfl⟩⟩
  obtain ⟨sep, hj, hsep⟩ := hshape
  rw [hj]
  have hmt : matchTail x (s ++ sep) = none :=
    matchTail_ne x s sep hs1 hne hs2 hx2 hsep
  rw [tryMatchAt.eq_def, hmt]
  simp only [ite_self]
  obtain ⟨c, s2, rfl⟩ := List.exists_cons_of_ne_nil hs1
  have hc : ¬ c = '/' := by
    simp only [List.contains_cons, Bool.or_eq_false_iff] at hs2
    intro he
    rw [he] at hs2
    simp at hs2
  rw [List.cons_append]
  dsimp only
  rw [if_neg hc]

/-- Match evaluation at a separator slash. -/
theorem tryMatchAt_sep_eq (x : List Char) (r : List Char)
    (rs : List (List Char)) (hr1 : r ≠ []) (hr2 : r.contains '/' = false)
    (hx2 : x.contains '/' = false) :
    tryMatchAt x false ('/' :: joinSegs (r :: rs))
      = (if r = x then
          (match rs with
           | [] => some (['/'], [])
           | _ :: _ => some (['/', '/'], joinSegs rs))
        else none) := by
  rw [tryMatchAt.eq_def]
  simp only [Bool.false_eq_true, if_false]
  rw [if_pos trivial]
  by_cases hrx : r = x
  · rw [if_pos hrx]
    subst hrx
    match rs with
    | [] =>
      rw [show joinSegs [r] = r from rfl, matchTail_self]
    | r2 :: rs2 =>
      rw [joinSegs_cons r (r2 :: rs2) (by simp), matchTail_self_append]
      rfl
  · rw [if_neg hrx]
    have hmt : matchTail x (joinSegs (r :: rs)) = none := by
      have hshape : ∃ sep, joinSegs (r :: rs) = r ++ sep ∧
          (sep = [] ∨ ∃ t, sep = '/' :: t) := by
        match rs with
        | [] => exact ⟨[], by simp [joinSegs], Or.inl rfl⟩
        | r2 :: rs2 =>
          exact ⟨'/' :: joinSegs (r2 :: rs2), joinSegs_cons r (r2 :: rs2) (by simp),
            Or.inr ⟨joinSegs (r2 :: rs2), rfl⟩⟩
      obtain ⟨sep, hj, hsep⟩ := hshape
      rw [hj]
      exact matchTail_ne x r sep hr1 hrx hr2 hx2 hsep
    rw [hmt]

theorem joinSegs_ne_nil {s : List Char} (rest : List (List Char))
    (hs : s ≠ []) : joinSegs (s :: rest) ≠ [] := by
  match rest with
  | [] => simpa [joinSegs] using hs
  | r :: rs =>
    rw [joinSegs_cons s (r :: rs) (by simp)]
    intro he
    rw [List.append_eq_nil] at he
    exact absurd he.1 hs

/-- The scan agrees with the segment-level description, in all three
scanning states. -/
theorem passEquiv (x : List Char) (hx2 : x.contains '/' = false) :
    ∀ n : Nat,
      (∀ l, wfSegs l → l.length ≤ n →
        replacePassAux x ((joinSegs l).length + 1) (joinSegs l) false
            = passMid x l ∧
        replacePassAux x ((joinSegs l).length + 1) (joinSegs l) true
            = passStart x l) ∧
      (∀ l, wfSegs l → l.length ≤ n → l ≠ [] →
        replacePassAux x (('/' :: joinSegs l).length + 1) ('/' :: joinSegs l)
            false = passSep x l) := by
  intro n
  induction n with
  | zero =>
    constructor
    · intro l _ hlen
      have hnil : l = [] := List.eq_nil_of_length_eq_zero (Nat.le_zero.mp hlen)
      subst hnil
      exact ⟨rfl, rfl⟩
    · intro l _ hlen hne
      exact absurd (List.eq_nil_of_length_eq_zero (Nat.le_zero.mp hlen)) hne
  | succ n ih =>
    have hmid : ∀ l, wfSegs l → l.length ≤ n + 1 →
        replacePassAux x ((joinSegs l).length + 1) (joinSegs l) false
            = passMid x l ∧
        replacePassAux x ((joinSegs l).length + 1) (joinSegs l) true
            = passStart x l := by
      intro l hwf hlen
      match l with
      | [] => exact ⟨rfl, rfl⟩
      | s :: rest =>
        obtain ⟨hs1, hs2⟩ := hwf s (List.mem_cons_self ..)
        have hmid1 : replacePassAux x ((joinSegs (s :: rest)).length + 1)
            (joinSegs (s :: rest)) false = s ++ passSep x rest := by
          match rest with
          | [] =>
            rw [show joinSegs [s] = s ++ [] by simp [joinSegs], rp_copy x s [] hs2]
            rw [show passSep x [] = [] from rfl]
            rfl
          | r :: rs =>
            rw [joinSegs_cons s (r :: rs) (by simp), rp_copy x s _ hs2]
            rw [(ih.2 (r :: rs) (wfSegs_tail hwf)
              (by simp only [List.length_cons] at hlen ⊢; omega) (by simp))]
        constructor
        · rw [hmid1]
          rfl
        · by_cases hsx : s = x
          · subst hsx
            obtain ⟨c, cs, hj⟩ :=
              List.exists_cons_of_ne_nil (joinSegs_ne_nil rest hs1)
            rw [rp_unfold, hj]
            dsimp only
            rw [← hj, tryMatchAt_start_eq]
            match rest with
            | [] =>
              rw [show passStart s [s] = [] by simp [passStart]]
              rfl
            | r :: rs =>
              dsimp only
              rw [(ih.1 (r :: rs) (wfSegs_tail hwf)
                (by simp only [List.length_cons] at hlen ⊢; omega)).1]
              rw [show passStart s (s :: r :: rs) = '/' :: passMid s (r :: rs) by
                simp [passStart]]
              rfl
          · have hnone_t := tryMatchAt_seg_ne x true s rest hs1 hs2 hsx hx2
            have hnone_f := tryMatchAt_seg_ne x false s rest hs1 hs2 hsx hx2
            obtain ⟨c, cs, hj⟩ :=
              List.exists_cons_of_ne_nil (joinSegs_ne_nil rest hs1)
            have heq : replacePassAux x ((joinSegs (s :: rest)).length + 1)
                (joinSegs (s :: rest)) true
                = replacePassAux x ((joinSegs (s :: rest)).length + 1)
                  (joinSegs (s :: rest)) false := by
              rw [rp_unfold, rp_unfold, hj]
              dsimp only
              rw [← hj, hnone_t, hnone_f]
            rw [heq, hmid1]
            rw [show passStart x (s :: rest) = s ++ passSep x rest by
              rw [passStart.eq_def]
              dsimp only
              rw [if_neg hsx]]
    refine ⟨hmid, ?_⟩
    intro l hwf hlen hne
    match l with
    | r :: rs =>
      obtain ⟨hr1, hr2⟩ := hwf r (List.mem_cons_self ..)
      rw [rp_unfold]
      dsimp only
      rw [tryMatchAt_sep_eq x r rs hr1 hr2 hx2]
      by_cases hrx : r = x
      · rw [if_pos hrx]
        match rs with
        | [] =>
          rw [passSep, if_pos hrx]
          rfl
        | r2 :: rs2 =>
          dsimp only
          rw [(ih.1 (r2 :: rs2) (wfSegs_tail hwf)
            (by simp only [List.length_cons] at hlen ⊢; omega)).1]
          rw [passSep, if_pos hrx]
          rfl
      · rw [if_neg hrx]
        dsimp only
        rw [(hmid (r :: rs) hwf hlen).1]
        rw [show passSep x (r :: rs) = '/' :: (r ++ passSep x rs) by
          rw [passSep.eq_def]
          dsimp only
          rw [if_neg hrx]]
        rw [show passMid x (r :: rs) = r ++ passSep x rs by rw [passMid]]

theorem collapse_nonslash (c : Char) (w : List Char) (b : Bool)
    (hc : c ≠ '/') : collapseSlashes (c :: w) b = c :: collapseSlashes w false := by
  rw [collapseSlashes, if_neg hc]

theorem collapse_slash_true (w : List Char) :
    collapseSlashes ('/' :: w) true = collapseSlashes w true := by
  rw [collapseSlashes, if_pos rfl, if_pos rfl]

theorem collapse_slash_false (w : List Char) :
    collapseSlashes ('/' :: w) false = '/' :: collapseSlashes w true := by
  rw [collapseSlashes, if_pos rfl, if_neg (by decide : ¬ false = true)]

theorem collapse_block : ∀ (r : List Char), r ≠ [] →
    r.contains '/' = false → ∀ (w : List Char) (b : Bool),
    collapseSlashes (r ++ w) b = r ++ collapseSlashes w false
  | [], hne, _, _, _ => absurd rfl hne
  | c :: r', _, hsf, w, b => by
    simp only [List.contains_cons, Bool.or_eq_false_iff] at hsf
    have hc : ¬ c = '/' := by
      intro he
      simp [he] at hsf
    match r' with
    | [] =>
      rw [List.cons_append, List.nil_append, collapse_nonslash c w b hc]
      rfl
    | d :: r2 =>
      rw [List.cons_append, collapse_nonslash c _ b hc,
        collapse_block (d :: r2) (by simp) hsf.2 w false]
      rfl

theorem strip_slash (l : List Char) :
    stripLeadingSlash ⟨'/' :: l⟩ = ⟨l⟩ := rfl

theorem strip_nonslash (c : Char) (l : List Char) (hc : c ≠ '/') :
    stripLeadingSlash ⟨c :: l⟩ = ⟨c :: l⟩ := by
  rw [stripLeadingSlash.eq_def]
  split
  · rename_i rest h
    have h2 : c :: l = '/' :: rest := h
    exact absurd (List.cons.injEq .. ▸ h2).1 hc
  · rfl

theorem strip_block (s w : List Char) (hne : s ≠ [])
    (hsf : s.contains '/' = false) :
    stripLeadingSlash ⟨s ++ w⟩ = ⟨s ++ w⟩ := by
  match s with
  | c :: s' =>
    simp only [List.contains_cons, Bool.or_eq_false_iff] at hsf
    have hc : c ≠ '/' := by
      intro he
      simp [he] at hsf
    rw [List.cons_append]
    exact strip_nonslash c (s' ++ w) hc

/-- A nonempty slash-free segment different from the ignored one, followed
by either nothing or a slash-led block free of the ignored segment, is free
of the ignored segment. -/
theorem memG (x r g : List Char) (hrsf : r.contains '/' = false)
    (hrx : r ≠ x)
    (hg : g = [] ∨ ∃ v, g = '/' :: v ∧ x ∉ segs v) :
    x ∉ segs (r ++ g) := by
  cases hg with
  | inl h =>
    subst h
    rw [List.append_nil, segs_slash_free r hrsf]
    intro hm
    rw [List.mem_singleton] at hm
    exact hrx hm.symm
  | inr h =>
    obtain ⟨v, hgv, hv⟩ := h
    subst hgv
    rw [segs_append_slash r v, segs_slash_free r hrsf]
    intro hm
    rw [List.singleton_append, List.mem_cons] at hm
    cases hm with
    | inl h2 => exact hrx h2.symm
    | inr h2 => exact hv h2

/-- Shape of a collapsed separator-state scan output: empty only for the
empty segment list, otherwise a single slash followed by characters whose
segments never include the ignored one (given no adjacent repetitions). -/
theorem sepShape (x : List Char) (hx1 : x ≠ [])
    (hx2 : x.contains '/' = false) :
    ∀ (n : Nat) (L : List (List Char)), L.length ≤ n → wfSegs L →
      noAdjX x L = true →
      (L = [] ∧ collapseSlashes (passSep x L) false = [])
      ∨ (∃ v, collapseSlashes (passSep x L) false = '/' :: v ∧ x ∉ segs v) := by
  intro n
  induction n with
  | zero =>
    intro L hlen _ _
    have hnil : L = [] := List.eq_nil_of_length_eq_zero (Nat.le_zero.mp hlen)
    subst hnil
    exact Or.inl ⟨rfl, rfl⟩
  | succ n ih =>
    intro L hlen hwf hadj
    match L with
    | [] => exact Or.inl ⟨rfl, rfl⟩
    | r :: rs =>
      obtain ⟨hr1, hr2⟩ := hwf r (List.mem_cons_self ..)
      by_cases hrx : r = x
      · match rs with
        | [] =>
          refine Or.inr ⟨[], ?_, ?_⟩
          · rw [show passSep x [r] = ['/'] by
              rw [passSep.eq_def]
              dsimp only
              rw [if_pos hrx]]
            rfl
          · intro hm
            rw [show segs ([] : List Char) = [[]] from rfl,
              List.mem_singleton] at hm
            exact hx1 hm
        | r2 :: rs2 =>
          obtain ⟨hr21, hr22⟩ := hwf r2 (by simp)
          have hr2x : r2 ≠ x := by
            intro he
            rw [noAdjX] at hadj
            have hl := Bool.and_elim_left hadj
            simp [hrx, he] at hl
          have hsep : passSep x (r :: r2 :: rs2)
              = '/' :: '/' :: (r2 ++ passSep x rs2) := by
            rw [passSep.eq_def]
            dsimp only
            rw [if_pos hrx,
              show passMid x (r2 :: rs2) = r2 ++ passSep x rs2 by rw [passMid]]
          rw [hsep, collapse_slash_false, collapse_slash_true,
            collapse_block r2 hr21 hr22 _ true]
          refine Or.inr ⟨r2 ++ collapseSlashes (passSep x rs2) false, rfl, ?_⟩
          refine memG x r2 _ hr22 hr2x ?_
          rcases ih rs2 (by simp only [List.length_cons] at hlen; omega)
            (wfSegs_tail (wfSegs_tail hwf))
            (noAdjX_tail (noAdjX_tail hadj)) with h | h
          · exact Or.inl h.2
          · exact Or.inr h
      · have hsep : passSep x (r :: rs) = '/' :: (r ++ passSep x rs) := by
          rw [passSep.eq_def]
          dsimp only
          rw [if_neg hrx]
        rw [hsep, collapse_slash_false, collapse_block r hr1 hr2 _ true]
        refine Or.inr ⟨r ++ collapseSlashes (passSep x rs) false, rfl, ?_⟩
        refine memG x r _ hr2 hrx ?_
        rcases ih rs (by simp only [List.length_cons] at hlen; omega)
          (wfSegs_tail hwf) (noAdjX_tail hadj) with h | h
        · exact Or.inl h.2
        · exact Or.inr h

/-- After the start-state scan, the slash collapse and the leading-slash
strip, the ignored segment never survives as a complete segment, provided
the original path had no adjacent repetitions of it. -/
theorem startNoX (x : List Char) (hx1 : x ≠ [])
    (hx2 : x.contains '/' = false) (L : List (List Char))
    (hwf : wfSegs L) (hadj : noAdjX x L = true) :
    x ∉ segs ((stripLeadingSlash
      ⟨collapseSlashes (passStart x L) false⟩).data) := by
  match L with
  | [] =>
    intro hm
    rw [show (stripLeadingSlash
        ⟨collapseSlashes (passStart x []) false⟩).data = [] from rfl] at hm
    rw [show segs ([] : List Char) = [[]] from rfl, List.mem_singleton] at hm
    exact hx1 hm
  | s :: rest =>
    obtain ⟨hs1, hs2⟩ := hwf s (List.mem_cons_self ..)
    by_cases hsx : s = x
    · match rest with
      | [] =>
        intro hm
        rw [show passStart x [s] = [] by
          rw [passStart.eq_def]
          dsimp only
          rw [if_pos hsx]] at hm
        rw [show (stripLeadingSlash
            ⟨collapseSlashes ([] : List Char) false⟩).data = [] from rfl] at hm
        rw [show segs ([] : List Char) = [[]] from rfl,
          List.mem_singleton] at hm
        exact hx1 hm
      | r2 :: rs2 =>
        obtain ⟨hr21, hr22⟩ := hwf r2 (by simp)
        have hr2x : r2 ≠ x := by
          intro he
          rw [noAdjX] at hadj
          have hl := Bool.and_elim_left hadj
          simp [hsx, he] at hl
        rw [show passStart x (s :: r2 :: rs2)
            = '/' :: (r2 ++ passSep x rs2) by
          rw [passStart.eq_def]
          dsimp only
          rw [if_pos hsx,
            show passMid x (r2 :: rs2) = r2 ++ passSep x rs2 by rw [passMid]]]
        rw [collapse_slash_false, collapse_block r2 hr21 hr22 _ true,
          strip_slash]
        refine memG x r2 _ hr22 hr2x ?_
        rcases sepShape x hx1 hx2 rs2.length rs2 le_rfl
          (wfSegs_tail (wfSegs_tail hwf))
          (noAdjX_tail (noAdjX_tail hadj)) with h | h
        · exact Or.inl h.2
        · exact Or.inr h
    · rw [show passStart x (s :: rest) = s ++ passSep x rest by
        rw [passStart.eq_def]
        dsimp only
        rw [if_neg hsx]]
      rw [collapse_block s hs1 hs2 _ false, strip_block s _ hs1 hs2]
      refine memG x s _ hs2 hsx ?_
      rcases sepShape x hx1 hx2 rest.length rest le_rfl
        (wfSegs_tail hwf) (noAdjX_tail hadj) with h | h
      · exact Or.inl h.2
      · exact Or.inr h

/-- With a single configured ignore segment and no added paths, the path
transformation is exactly: one replace pass, slash collapse, strip of one
leading slash. -/
theorem apt_single (x : List Char) (l : List Char) :
    applyPathTransformations ⟨l⟩ (some ⟨[⟨x⟩], []⟩)
      = stripLeadingSlash ⟨collapseSlashes (replacePass x l) false⟩ := rfl

/-- C2: the spec says removal of ignored segments is repeated until no
ignore segment matches, so a path where `x` occurs only as full segments
(even adjacent, like `x/x/y`) never keeps `x` as a standalone segment.
The code performs a single non-overlapping global replace pass: on
`x/x/y` the first match consumes `x/` and the scan resumes at the second
`x`, which is now mid-pattern for the anchored regex, so the result
`x/y` still contains `x` as a standalone segment. -/
theorem C2_counterexample :
    applyPathTransformations "x/x/y" (some ⟨["x"], []⟩) = "x/y"
    ∧ hasSegment "x" (applyPathTransformations "x/x/y" (some ⟨["x"], []⟩))
        = true
    ∧ pathSegments "x/x/y" = ["x", "x", "y"]
    ∧ noAdjX "x".data (segs "x/x/y".data) = false := by
  refine ⟨?_, ?_, ?_, ?_⟩ <;> decide

/-- C2, amended: the transformation applies one left-to-right
non-overlapping replace pass per ignored segment (not repeated to a
fixpoint). For a well-formed path (nonempty slash-free segments) in which
no two adjacent segments both equal the ignored segment `x`, the result
of transforming with ignore `[x]` never contains `x` as a standalone
segment; in particular `x/a/x/b` with ignore `[x]` becomes `a/b`.
The guarantee is stated only for ignored segments free of regex
metacharacters: the code interpolates the segment into the pattern
unescaped, so only such segments act as literal segment removers. -/
theorem C2_amended :
    (∀ (x : List Char) (L : List (List Char)), x ≠ [] →
      x.contains '/' = false → (∀ c ∈ x, isRegexMeta c = false) →
      wfSegs L → noAdjX x L = true →
      hasSegment ⟨x⟩ (applyPathTransformations ⟨joinSegs L⟩
        (some ⟨[⟨x⟩], []⟩)) = false)
    ∧ applyPathTransformations "x/a/x/b" (some ⟨["x"], []⟩) = "a/b" := by
  constructor
  · intro x L hx1 hx2 _hmeta hwf hadj
    rw [apt_single, replacePass,
      ((passEquiv x hx2 L.length).1 L hwf le_rfl).2, hasSegment,
      contains_eq_decide_mem]
    simp only [decide_eq_false_iff_not]
    exact startNoX x hx1 hx2 L hwf hadj
  · decide

/-- Concrete instance of the amended C2 theorem: ignoring segment `x` on
the path `a/x/b` leaves no standalone `x` segment. -/
theorem C2_witness :
    hasSegment ⟨['x']⟩ (applyPathTransformations
      ⟨joinSegs [['a'], ['x'], ['b']]⟩ (some ⟨[⟨['x']⟩], []⟩)) = false :=
  C2_amended.1 ['x'] [['a'], ['x'], ['b']] (by decide) (by decide)
    (by decide) (by unfold wfSegs; decide) (by decide)

end LLMsPlugin
